import Mathlib

/-!
A shallow embedding of the ContextDB engine (src/types.rs, src/query.rs,
src/storage/mod.rs, src/storage/sqlite.rs) and proofs about it.

Modelling conventions, chosen once for the whole development:

* `Uuid` values are modelled as `Nat` (only identity matters to the engine).
* `DateTime<Utc>` values are modelled as `Nat`; `to_rfc3339` serialization and
  `parse_from_rfc3339` are order- and value-preserving round trips, so the
  SQL string comparison on stored timestamp text and the chrono comparison
  are both modelled as the `Nat` order.
* `f32` scalars are modelled as real numbers (`ℝ`); the floating-point
  rounding of the source is out of scope, the arithmetic structure is kept.
* A serialized column value (the `meaning` BLOB written by `bincode::serialize`,
  the `context` TEXT written by `serde_json::to_string`) is modelled by
  `Payload α`: either a well-formed encoding of a value (`Payload.good`)
  carrying the decoded value, or an undecodable byte string
  (`Payload.malformed`).  `serialize` always produces `Payload.good`,
  `decode` is the deserializer (`None` = decode failure).
* `serde_json::Value` is modelled by `JsonValue`, with JSON numbers as `Int`
  and objects as association lists.
* A compiled regex is modelled abstractly by `Pattern`: the raw pattern text
  (what the SQL coarse phase sees), a `valid` flag (`Regex::new` succeeds),
  the compiled matcher `regex_matches : String → Bool` (what `is_match` does),
  and the compile error text used in the `Invalid regex: ...` message.
* Rust's `str::to_lowercase` and SQLite's `LOWER` are both modelled as
  `String.toLower` (they agree on ASCII; the model identifies them).
* SQLite `INSTR(x, y) > 0` is modelled as "the character list of `y` is an
  infix of the character list of `x`" (SQLite's `instr` reports position 1
  for an empty needle, so the empty needle is always found).
  `SUBSTR(x, 1, n)` is the first `n` characters of `x`.
* A SQL table is a list of rows in insertion order; the `entries` table rows
  are `EntryRow`, the `relations` table rows are `(from_id, to_id)` pairs.
  `rusqlite` does not switch on `PRAGMA foreign_keys`, and the reference
  code never does either, so the declared foreign keys of the `relations`
  table are not enforced: inserting an edge whose endpoints have no entries
  row succeeds, as it does in the running program.
* A `HashSet` is modelled as a duplicate-free list; collecting rows into a
  set is `List.dedup`.  A `HashMap<Uuid, Vec<Uuid>>` adjacency map is
  modelled extensionally by the row list it was built from, with lookups
  performed by `adjacencyOf`; per-key neighbor lists hold the same elements
  as the source's (the interleaving order of the build loop is not kept,
  which no set-level statement below depends on).
-/

namespace ContextDB

/-- Result of decoding a stored byte string: either the value it encodes or
a decode failure (`bincode::deserialize` / `serde_json::from_str` erring). -/
inductive Payload (α : Type) where
  | good (val : α)
  | malformed
deriving DecidableEq

/-- The deserializer: recover the encoded value, or fail. -/
def Payload.decode {α : Type} : Payload α → Option α
  | .good v => some v
  | .malformed => none

/-- `serde_json::Value`: a dynamically-typed JSON tree (src/types.rs uses it
for the `context` field). JSON numbers are modelled as `Int`. -/
inductive JsonValue where
  | null
  | bool (b : Bool)
  | num (n : Int)
  | str (s : String)
  | arr (items : List JsonValue)
  | obj (fields : List (String × JsonValue))

/-- Structural equality of JSON values (the `PartialEq` used by
`context.pointer(path) == Some(value)` and `arr.contains(value)`). -/
def JsonValue.beq : JsonValue → JsonValue → Bool
  | .null, .null => true
  | .bool a, .bool b => a == b
  | .num a, .num b => a == b
  | .str a, .str b => a == b
  | .arr [], .arr [] => true
  | .arr (a :: as), .arr (b :: bs) => a.beq b && (JsonValue.arr as).beq (JsonValue.arr bs)
  | .obj [], .obj [] => true
  | .obj ((k, v) :: fs), .obj ((k', v') :: gs) =>
      k == k' && v.beq v' && (JsonValue.obj fs).beq (JsonValue.obj gs)
  | _, _ => false

/-- `serde_json`'s `parse_index` for JSON-pointer array tokens: no leading
`+`, no leading zeros (except `"0"` itself), otherwise a decimal index. -/
def parseIndex (s : String) : Option Nat :=
  if s.startsWith "+" then none
  else if s.startsWith "0" && s.length ≠ 1 then none
  else s.toNat?

/-- Walk a list of already-unescaped JSON-pointer tokens from a value
(the fold inside `serde_json::Value::pointer`). -/
def JsonValue.pointerTokens : JsonValue → List String → Option JsonValue
  | v, [] => some v
  | .obj fields, t :: ts =>
      match (fields.find? fun f => f.1 == t) with
      | some f => f.2.pointerTokens ts
      | none => none
  | .arr items, t :: ts =>
      match parseIndex t with
      | some i =>
          match items.get? i with
          | some v => v.pointerTokens ts
          | none => none
      | none => none
  | _, _ :: _ => none

/-- `serde_json::Value::pointer`: `""` addresses the whole document, other
paths must start with `/`; tokens are split on `/` with `~1` → `/` and
`~0` → `~` unescaping. -/
def JsonValue.pointer (v : JsonValue) (path : String) : Option JsonValue :=
  if path = "" then some v
  else if ¬ path.startsWith "/" then none
  else v.pointerTokens
    (((path.splitOn "/").drop 1).map fun t => (t.replace "~1" "/").replace "~0" "~")

/-- An abstract compiled regex (the `regex::Regex` of the source): the raw
pattern text, whether `Regex::new` succeeds, the matcher `is_match`, and the
compile-error text interpolated into the `Invalid regex: ...` message. -/
structure Pattern where
  text : String
  valid : Bool
  regex_matches : String → Bool
  err_msg : String

/-- src/storage/mod.rs `StorageError` (the `Backend` variant carries only
its message here). -/
inductive StorageError where
  | database (msg : String)
  | serialization (msg : String)
  | notFound (id : Nat)
  | invalidDimensions
  | backend (msg : String)

/-- src/query.rs `ExpressionFilter`. -/
inductive ExpressionFilter where
  | equals (s : String)
  | contains (s : String)
  | startsWith (s : String)
  | matches (p : Pattern)

/-- src/query.rs `ContextFilter`. -/
inductive ContextFilter where
  | pathExists (path : String)
  | pathEquals (path : String) (value : JsonValue)
  | pathContains (path : String) (value : JsonValue)
  | and (filters : List ContextFilter)
  | or (filters : List ContextFilter)

/-- src/query.rs `TemporalFilter`. -/
inductive TemporalFilter where
  | createdAfter (t : Nat)
  | createdBefore (t : Nat)
  | createdBetween (start stop : Nat)
  | updatedAfter (t : Nat)
  | updatedBefore (t : Nat)

/-- src/query.rs `RelationFilter` (`from` is a Lean keyword, renamed `src`). -/
inductive RelationFilter where
  | directlyRelatedTo (id : Nat)
  | withinDistance (src : Nat) (max_hops : Nat)
  | hasRelations
  | noRelations

/-- src/query.rs `MeaningFilter`. -/
structure MeaningFilter where
  vector : List ℝ
  threshold : Option ℝ
  top_k : Option Nat

/-- src/query.rs `Query`. -/
structure Query where
  meaning : Option MeaningFilter
  expression : Option ExpressionFilter
  context : Option ContextFilter
  relations : Option RelationFilter
  temporal : Option TemporalFilter
  limit : Option Nat
  explain : Bool

/-- `Query::new()`: the empty query. -/
def Query.new : Query :=
  { meaning := none, expression := none, context := none, relations := none,
    temporal := none, limit := none, explain := false }

/-- src/types.rs `Entry`. -/
structure Entry where
  id : Nat
  meaning : List ℝ
  expression : String
  context : JsonValue
  created_at : Nat
  updated_at : Nat
  relations : List Nat

/-- `Entry::new`: `Uuid::new_v4()` and `Utc::now()` are environment inputs,
passed explicitly as `id` and `now`. -/
def Entry.new (id now : Nat) (meaning : List ℝ) (expression : String) : Entry :=
  { id := id, meaning := meaning, expression := expression, context := .null,
    created_at := now, updated_at := now, relations := [] }

/-- `Entry::with_context`: replace the context metadata. -/
def Entry.with_context (e : Entry) (context : JsonValue) : Entry :=
  { e with context := context }

/-- `Entry::add_relation`: append the id and stamp `updated_at` with the
clock reading `now` unless the id is already present. -/
def Entry.add_relation (e : Entry) (now : Nat) (entry_id : Nat) : Entry :=
  if e.relations.contains entry_id then e
  else { e with relations := e.relations ++ [entry_id], updated_at := now }

/-- src/types.rs `cosine_similarity`. -/
noncomputable def cosine_similarity (a b : List ℝ) : ℝ :=
  if a.length ≠ b.length then 0
  else
    let dot_product : ℝ := (List.zipWith (fun x y => x * y) a b).sum
    let magnitude_a : ℝ := Real.sqrt ((a.map fun x => x * x).sum)
    let magnitude_b : ℝ := Real.sqrt ((b.map fun x => x * x).sum)
    if magnitude_a = 0 ∨ magnitude_b = 0 then 0
    else dot_product / (magnitude_a * magnitude_b)

/-- `Entry::similarity`. -/
noncomputable def Entry.similarity (e other : Entry) : ℝ :=
  cosine_similarity e.meaning other.meaning

/-- src/query.rs `QueryResult`. -/
structure QueryResult where
  entry : Entry
  similarity_score : Option ℝ
  explanation : Option String

/-- A row of the `entries` table: the persisted form of an `Entry`
(sqlite.rs `initialize`): serialized meaning BLOB, expression text,
serialized context text, timestamp texts. -/
structure EntryRow where
  id : Nat
  meaning : Payload (List ℝ)
  expression : String
  context : Payload JsonValue
  created_at : Nat
  updated_at : Nat

/-- The state of a `SqliteStorage`: the `entries` table and the `relations`
table of directed `(from_id, to_id)` edges, each in row order. -/
structure Store where
  entries : List EntryRow
  edges : List (Nat × Nat)

/-- sqlite.rs `matches_expression`: the precise expression predicate. -/
def matches_expression (expression : String) : ExpressionFilter → Except StorageError Bool
  | .equals s => .ok (expression == s)
  | .contains s => .ok (decide (s.toLower.toList <:+: expression.toLower.toList))
  | .startsWith s => .ok (decide (s.toList <+: expression.toList))
  | .matches p =>
      if p.valid then .ok (p.regex_matches expression)
      else .error (.database ("Invalid regex: " ++ p.err_msg))

/-- sqlite.rs `matches_context`: the precise context predicate; the source's
`iter().all`/`iter().any` over subfilters is rendered by structural
recursion that peels the list. -/
def matches_context (context : JsonValue) : ContextFilter → Bool
  | .pathExists path => (context.pointer path).isSome
  | .pathEquals path value =>
      match context.pointer path with
      | some v => v.beq value
      | none => false
  | .pathContains path value =>
      match context.pointer path with
      | some (.arr items) => items.any fun x => x.beq value
      | _ => false
  | .and [] => true
  | .and (f :: fs) => matches_context context f && matches_context context (.and fs)
  | .or [] => false
  | .or (f :: fs) => matches_context context f || matches_context context (.or fs)

/-- sqlite.rs `matches_temporal`: the precise temporal predicate
(all bounds exclusive). -/
def matches_temporal (e : Entry) : TemporalFilter → Bool
  | .createdAfter t => decide (t < e.created_at)
  | .createdBefore t => decide (e.created_at < t)
  | .createdBetween start stop => decide (start < e.created_at ∧ e.created_at < stop)
  | .updatedAfter t => decide (t < e.updated_at)
  | .updatedBefore t => decide (e.updated_at < t)

/-- The neighbor list the built `HashMap` adjacency holds for key `x`:
`to` ends of edges leaving `x` and `from` ends of edges entering `x`. -/
def adjacencyOf (edges : List (Nat × Nat)) (x : Nat) : List Nat :=
  (edges.filter fun p => p.1 == x).map (fun p => p.2) ++
    (edges.filter fun p => p.2 == x).map fun p => p.1

/-- Every id appearing as an endpoint of some edge (with duplicates). -/
def nodesOf (edges : List (Nat × Nat)) : List Nat :=
  edges.flatMap fun p => [p.1, p.2]

/-- sqlite.rs `RelationIndex`, modelled extensionally by the edge rows it
was built from; `adjacency` and `related_ids` are derived lookups. -/
structure RelationIndex where
  rows : List (Nat × Nat)

/-- Adjacency lookup in the index (`HashMap::get`, `None` giving `[]`). -/
def RelationIndex.adjacency (index : RelationIndex) (x : Nat) : List Nat :=
  adjacencyOf index.rows x

/-- The `related_ids` set of the index: every endpoint of every edge row. -/
def RelationIndex.related_ids (index : RelationIndex) : List Nat :=
  (nodesOf index.rows).dedup

/-- sqlite.rs `load_relation_index`: read all `(from_id, to_id)` rows and
build the index. -/
def load_relation_index (s : Store) : RelationIndex := ⟨s.edges⟩

/-- sqlite.rs `direct_relations`: the adjacency set of `id`
(collected into a `HashSet`). -/
def direct_relations (index : RelationIndex) (id : Nat) : List Nat :=
  (index.adjacency id).dedup

/-- The inner neighbor loop of `within_distance_relations`: mark each
not-yet-visited neighbor visited, record it as a result and enqueue it with
`next_hops`. -/
def visitNeighbors (visited results : List Nat) (queue : List (Nat × Nat))
    (next_hops : Nat) : List Nat → List Nat × List Nat × List (Nat × Nat)
  | [] => (visited, results, queue)
  | n :: ns =>
    if visited.contains n then visitNeighbors visited results queue next_hops ns
    else visitNeighbors (n :: visited) (n :: results) (queue ++ [(n, next_hops)]) next_hops ns

/-- The `while let Some((current, hops)) = queue.pop_front()` loop of
`within_distance_relations`: skip expansion once `hops` reaches `max_hops`,
otherwise visit the popped node's neighbors. -/
def bfsLoop (edges : List (Nat × Nat)) (max_hops : Nat) :
    List Nat → List Nat → List (Nat × Nat) → List Nat
  | _, results, [] => results
  | visited, results, (current, hops) :: rest =>
    if max_hops ≤ hops then bfsLoop edges max_hops visited results rest
    else
      let t := visitNeighbors visited results rest (hops + 1) (adjacencyOf edges current)
      bfsLoop edges max_hops t.1 t.2.1 t.2.2
termination_by visited _ queue =>
  (((nodesOf edges).toFinset \ visited.toFinset).card, queue.length)
decreasing_by
  · exact Prod.Lex.right _ (Nat.lt_succ_self _)
  · have mono : ∀ (ns vis res : List Nat) (q : List (Nat × Nat)) (nh x : Nat),
        x ∈ vis → x ∈ (visitNeighbors vis res q nh ns).1 := by
      intro ns
      induction ns with
      | nil => intro vis res q nh x hx; simpa [visitNeighbors] using hx
      | cons n ns ih =>
        intro vis res q nh x hx
        by_cases h : n ∈ vis
        · simpa [visitNeighbors, h] using ih vis res q nh x hx
        · have hc : vis.contains n = false := by simpa using h
          simp only [visitNeighbors, hc, Bool.false_eq_true, if_false]
          exact ih _ _ _ nh x (List.mem_cons_of_mem n hx)
    have key : ∀ (ns vis res : List Nat) (q : List (Nat × Nat)) (nh : Nat),
        ((visitNeighbors vis res q nh ns).1 = vis ∧ (visitNeighbors vis res q nh ns).2.2 = q)
        ∨ ∃ x, x ∈ ns ∧ x ∉ vis ∧ x ∈ (visitNeighbors vis res q nh ns).1 := by
      intro ns
      induction ns with
      | nil => intro vis res q nh; exact Or.inl ⟨rfl, rfl⟩
      | cons n ns ih =>
        intro vis res q nh
        by_cases h : n ∈ vis
        · rcases ih vis res q nh with hl | ⟨x, hx1, hx2, hx3⟩
          · exact Or.inl (by simpa [visitNeighbors, h] using hl)
          · exact Or.inr ⟨x, List.mem_cons_of_mem n hx1, hx2,
              by simpa [visitNeighbors, h] using hx3⟩
        · refine Or.inr ⟨n, List.mem_cons_self n ns, h, ?_⟩
          have hc : vis.contains n = false := by simpa using h
          simp only [visitNeighbors, hc, Bool.false_eq_true, if_false]
          exact mono _ _ _ _ _ _ (List.mem_cons_self n vis)
    have adj_sub : ∀ y, y ∈ adjacencyOf edges current → y ∈ nodesOf edges := by
      intro y hy
      simp only [adjacencyOf, List.mem_append, List.mem_map, List.mem_filter] at hy
      simp only [nodesOf, List.mem_flatMap]
      rcases hy with ⟨p, ⟨hp, _⟩, hpy⟩ | ⟨p, ⟨hp, _⟩, hpy⟩
      · exact ⟨p, hp, by simp [← hpy]⟩
      · exact ⟨p, hp, by simp [← hpy]⟩
    rcases key (adjacencyOf edges current) visited results rest (hops + 1) with
      ⟨hv, hq⟩ | ⟨x, hx1, hx2, hx3⟩
    · rw [hv, hq]
      exact Prod.Lex.right _ (Nat.lt_succ_self _)
    · apply Prod.Lex.left
      apply Finset.card_lt_card
      rw [Finset.ssubset_iff_of_subset]
      · refine ⟨x, ?_, ?_⟩
        · simp only [Finset.mem_sdiff, List.mem_toFinset]
          exact ⟨adj_sub x hx1, hx2⟩
        · simp only [Finset.mem_sdiff, List.mem_toFinset, not_and, not_not]
          intro _
          exact hx3
      · intro y hy
        simp only [Finset.mem_sdiff, List.mem_toFinset] at hy ⊢
        exact ⟨hy.1, fun hmem => hy.2 (mono _ _ _ _ _ _ hmem)⟩

/-- sqlite.rs `within_distance_relations`: the `max_hops == 0` early return,
then breadth-first search seeded with the origin visited and enqueued at
hop 0. -/
def within_distance_relations (index : RelationIndex) (src max_hops : Nat) : List Nat :=
  if max_hops = 0 then []
  else bfsLoop index.rows max_hops [src] [] [(src, 0)]

/-- sqlite.rs `generate_explanation`. The numeric rendering of the score
inside the semantic part is abstracted away: only the phrase that names the
category is kept. -/
def generate_explanation (_entry : Entry) (q : Query) (similarity_score : Option ℝ) :
    String :=
  let parts : List String :=
    (match similarity_score with
     | some _ => ["Semantic similarity"]
     | none => []) ++
    (if q.expression.isSome then ["Matched expression filter"] else []) ++
    (if q.context.isSome then ["Matched context filter"] else []) ++
    (if q.temporal.isSome then ["Matched temporal filter"] else []) ++
    (if q.relations.isSome then ["Matched relation filter"] else [])
  String.intercalate ", " parts

/-- sqlite.rs `get_entry_ids`: `SELECT id FROM entries` collected into a
`HashSet`. -/
def get_entry_ids (s : Store) : List Nat :=
  (s.entries.map fun r => r.id).dedup

/-- sqlite.rs `query_expression_ids`: the coarse SQL narrowing for each
expression filter.  `Equals` compares the column, `Contains` is
`INSTR(LOWER(expression), lowered) > 0`, `StartsWith` is
`SUBSTR(expression, 1, char_count) = value`, and `Matches` first validates
the regex and then runs `INSTR(expression, pattern) > 0` — substring
containment of the raw pattern text, not a regex test. -/
def query_expression_ids (s : Store) : ExpressionFilter → Except StorageError (List Nat)
  | .equals v =>
      .ok (((s.entries.filter fun r => r.expression == v).map fun r => r.id).dedup)
  | .contains v =>
      .ok (((s.entries.filter fun r =>
        decide (v.toLower.toList <:+: r.expression.toLower.toList)).map
          fun r => r.id).dedup)
  | .startsWith v =>
      .ok (((s.entries.filter fun r =>
        r.expression.toList.take v.toList.length == v.toList).map
          fun r => r.id).dedup)
  | .matches p =>
      if p.valid then
        .ok (((s.entries.filter fun r =>
          decide (p.text.toList <:+: r.expression.toList)).map fun r => r.id).dedup)
      else .error (.database ("Invalid regex: " ++ p.err_msg))

/-- The row-level acceptance of each temporal `WHERE` clause of
`query_temporal_ids` (string comparison of stored RFC 3339 text, modelled
as the order on the timestamp values). -/
def temporal_row_accepts (r : EntryRow) : TemporalFilter → Bool
  | .createdAfter t => decide (t < r.created_at)
  | .createdBefore t => decide (r.created_at < t)
  | .createdBetween start stop => decide (start < r.created_at ∧ r.created_at < stop)
  | .updatedAfter t => decide (t < r.updated_at)
  | .updatedBefore t => decide (r.updated_at < t)

/-- sqlite.rs `query_temporal_ids`: the coarse SQL narrowing on the stored
timestamp columns, one `SELECT id FROM entries WHERE ...` per variant. -/
def query_temporal_ids (s : Store) (f : TemporalFilter) : List Nat :=
  ((s.entries.filter fun r => temporal_row_accepts r f).map fun r => r.id).dedup

/-- The `HasRelations` id set: `SELECT from_id FROM relations UNION SELECT
to_id FROM relations` (shared by the `NoRelations` case, which the source
obtains by a recursive call with `HasRelations`). -/
def has_relation_ids (s : Store) : List Nat :=
  ((s.edges.map fun p => p.1) ++ s.edges.map fun p => p.2).dedup

/-- sqlite.rs `query_relation_ids`: the coarse narrowing for each relation
filter. -/
def query_relation_ids (s : Store) : RelationFilter → List Nat
  | .directlyRelatedTo id =>
      (((s.edges.filter fun p => p.1 == id).map fun p => p.2) ++
        ((s.edges.filter fun p => p.2 == id).map fun p => p.1)).dedup
  | .withinDistance src max_hops =>
      within_distance_relations (load_relation_index s) src max_hops
  | .hasRelations => has_relation_ids s
  | .noRelations =>
      (get_entry_ids s).filter fun id => !((has_relation_ids s).contains id)

/-- sqlite.rs `get` (the `StorageBackend` impl): look the row up by id,
decode the stored meaning and context payloads, parse the timestamps, and
attach the outgoing relations.  The `query_row` closure turns every decode
failure into `rusqlite::Error::InvalidQuery`, and the following
`.map_err(|_| StorageError::NotFound(id))` turns every `query_row` failure —
a missing row and a malformed stored payload alike — into `NotFound(id)`. -/
def Store.get (s : Store) (id : Nat) : Except StorageError Entry :=
  match s.entries.find? fun r => r.id == id with
  | none => .error (.notFound id)
  | some row =>
    match row.meaning.decode, row.context.decode with
    | some m, some c =>
        .ok { id := id, meaning := m, expression := row.expression, context := c,
              created_at := row.created_at, updated_at := row.updated_at,
              relations := (s.edges.filter fun p => p.1 == id).map fun p => p.2 }
    | _, _ => .error (.notFound id)

/-- `get` each id of a list in order, the first failure aborting the
collection (the `map(get).collect::<Result<Vec<_>>>` / result-collecting
loop shared by `get_all_entries` and `get_entries_by_ids`). -/
def get_each (s : Store) : List Nat → Except StorageError (List Entry)
  | [] => .ok []
  | id :: ids =>
    match s.get id with
    | .error err => .error err
    | .ok e =>
      match get_each s ids with
      | .error err => .error err
      | .ok rest => .ok (e :: rest)

/-- sqlite.rs `get_all_entries`: `SELECT id FROM entries`, then `get` each
id. -/
def get_all_entries (s : Store) : Except StorageError (List Entry) :=
  get_each s (s.entries.map fun r => r.id)

/-- sqlite.rs `get_entries_by_ids`: `get` each candidate id. -/
def get_entries_by_ids (s : Store) (ids : List Nat) : Except StorageError (List Entry) :=
  get_each s ids

/-- `INSERT OR IGNORE INTO relations` for each relation id of `entry`:
append the directed edge unless the `(from_id, to_id)` primary key is
already present. -/
def insert_edges (edges : List (Nat × Nat)) (id : Nat) (rels : List Nat) :
    List (Nat × Nat) :=
  rels.foldl (fun es r => if es.contains (id, r) then es else es ++ [(id, r)]) edges

/-- sqlite.rs `insert`: serialize and insert the entries row — failing on a
duplicate primary key — then insert-or-ignore the outgoing relation edges. -/
def Store.insert (s : Store) (e : Entry) : Except StorageError Store :=
  if (s.entries.map fun r => r.id).contains e.id then
    .error (.database "UNIQUE constraint failed: entries.id")
  else
    .ok { entries := s.entries ++
            [{ id := e.id, meaning := .good e.meaning, expression := e.expression,
               context := .good e.context, created_at := e.created_at,
               updated_at := e.updated_at }],
          edges := insert_edges s.edges e.id e.relations }

/-- sqlite.rs `update`: `UPDATE entries SET meaning, expression, context,
updated_at WHERE id` (`created_at` is not in the SET list; zero rows match
when the id is absent and no error is raised), then `DELETE FROM relations
WHERE from_id = id` and insert-or-ignore the entry's relation edges. -/
def Store.update (s : Store) (e : Entry) : Except StorageError Store :=
  .ok { entries := s.entries.map fun r =>
          if r.id == e.id then
            { r with meaning := .good e.meaning, expression := e.expression,
                     context := .good e.context, updated_at := e.updated_at }
          else r,
        edges := insert_edges (s.edges.filter fun p => !(p.1 == e.id)) e.id e.relations }

/-- sqlite.rs `delete`: remove every edge touching the id in either
direction, then delete the entries row, failing `NotFound` when no row was
deleted. -/
def Store.delete (s : Store) (id : Nat) : Except StorageError Store :=
  if (s.entries.map fun r => r.id).contains id then
    .ok { entries := s.entries.filter fun r => !(r.id == id),
          edges := s.edges.filter fun p => !(p.1 == id) && !(p.2 == id) }
  else .error (.notFound id)

/-- sqlite.rs `count`: the number of entries rows. -/
def Store.count (s : Store) : Except StorageError Nat :=
  .ok s.entries.length

/-- The meaning-filter stage of `query` (sqlite.rs 531-548), hoisted into a
function: stable-sort by cosine similarity to the query vector in
descending order (`sim_b.partial_cmp(&sim_a)`), then `retain` the entries
whose similarity reaches the inclusive threshold when one is set, then
`truncate` to `top_k` when it is set. -/
noncomputable def rank_by_meaning (mf : MeaningFilter) (results : List Entry) :
    List Entry :=
  let sorted := results.mergeSort fun a b =>
    decide (cosine_similarity b.meaning mf.vector ≤ cosine_similarity a.meaning mf.vector)
  let thresholded :=
    match mf.threshold with
    | some t => sorted.filter fun e => decide (t ≤ cosine_similarity e.meaning mf.vector)
    | none => sorted
  match mf.top_k with
  | some k => thresholded.take k
  | none => thresholded

/-- The precise expression-filter loop of `query` (sqlite.rs 551-559):
keep the entries `matches_expression` accepts, aborting on its error. -/
def filter_entries_by_expression (f : ExpressionFilter) :
    List Entry → Except StorageError (List Entry)
  | [] => .ok []
  | e :: es =>
    match matches_expression e.expression f with
    | .error err => .error err
    | .ok b =>
      match filter_entries_by_expression f es with
      | .error err => .error err
      | .ok rest => .ok (if b then e :: rest else rest)

/-- The precise relation `retain` predicate of `query` (sqlite.rs 572-592),
one case per relation filter. -/
def relation_filter_accepts (index : RelationIndex) : RelationFilter → Entry → Bool
  | .directlyRelatedTo id, e => (direct_relations index id).contains e.id
  | .withinDistance src max_hops, e =>
      (within_distance_relations index src max_hops).contains e.id
  | .hasRelations, e => index.related_ids.contains e.id
  | .noRelations, e => !(index.related_ids.contains e.id)

/-- The optional-candidate-set intersection of `query`'s narrowing steps:
`existing.intersection(&ids)` or the first computed set. -/
def intersectOpt (cur : Option (List Nat)) (ids : List Nat) : Option (List Nat) :=
  match cur with
  | some existing => some (existing.filter fun i => ids.contains i)
  | none => some ids

/-- Steps 1-2 of `query`'s coarse narrowing after the expression step: the
temporal intersection (sqlite.rs 499-505). -/
def coarse_after_temporal (s : Store) (q : Query) (cand : Option (List Nat)) :
    Option (List Nat) :=
  match q.temporal with
  | some f => intersectOpt cand (query_temporal_ids s f)
  | none => cand

/-- The relation intersection of `query`'s coarse narrowing
(sqlite.rs 507-513). -/
def coarse_after_relations (s : Store) (q : Query) (cand : Option (List Nat)) :
    Option (List Nat) :=
  match q.relations with
  | some f => intersectOpt cand (query_relation_ids s f)
  | none => cand

/-- The full coarse-narrowing phase of `query` (sqlite.rs 489-513):
expression, then temporal, then relation candidate sets, intersected in
that order; the expression step can fail on an invalid regex. -/
def coarse_candidates (s : Store) (q : Query) :
    Except StorageError (Option (List Nat)) :=
  match q.expression with
  | some f =>
    match query_expression_ids s f with
    | .error err => .error err
    | .ok ids =>
        .ok (coarse_after_relations s q (coarse_after_temporal s q (intersectOpt none ids)))
  | none => .ok (coarse_after_relations s q (coarse_after_temporal s q none))

/-- The early-exit test of `query` (sqlite.rs 515-517):
`matches!(candidate_ids, Some(ids) if ids.is_empty())`. -/
def coarse_is_empty (candidate : Option (List Nat)) : Bool :=
  match candidate with
  | some ids => ids.isEmpty
  | none => false

/-- The materialization step of `query` (sqlite.rs 520-523): load the
candidate entries, or the whole store when no coarse filter ran. -/
def materialize (s : Store) (candidate : Option (List Nat)) :
    Except StorageError (List Entry) :=
  match candidate with
  | some ids => get_entries_by_ids s ids
  | none => get_all_entries s

/-- The similarity-ranking step of `query` (sqlite.rs 531-548). -/
noncomputable def rank_stage (q : Query) (materialized : List Entry) : List Entry :=
  match q.meaning with
  | some mf => rank_by_meaning mf materialized
  | none => materialized

/-- The precise expression re-filtering step of `query`
(sqlite.rs 550-559). -/
def expression_stage (q : Query) (ranked : List Entry) :
    Except StorageError (List Entry) :=
  match q.expression with
  | some f => filter_entries_by_expression f ranked
  | none => .ok ranked

/-- The precise context re-filtering step of `query` (sqlite.rs 561-564). -/
def context_stage (q : Query) (l : List Entry) : List Entry :=
  match q.context with
  | some f => l.filter fun e => matches_context e.context f
  | none => l

/-- The precise temporal re-filtering step of `query`
(sqlite.rs 566-569). -/
def temporal_stage (q : Query) (l : List Entry) : List Entry :=
  match q.temporal with
  | some f => l.filter fun e => matches_temporal e f
  | none => l

/-- The precise relation re-filtering step of `query` (sqlite.rs 525-529
builds the index iff a relation filter is present, 571-592 applies it). -/
def relation_stage (s : Store) (q : Query) (l : List Entry) : List Entry :=
  match q.relations, (if q.relations.isSome then some (load_relation_index s) else none) with
  | some rf, some index => l.filter fun e => relation_filter_accepts index rf e
  | _, _ => l

/-- The result-limit step of `query` (sqlite.rs 594-597). -/
def limit_stage (q : Query) (l : List Entry) : List Entry :=
  match q.limit with
  | some n => l.take n
  | none => l

/-- The result-construction step of `query` (sqlite.rs 599-620): attach the
similarity score iff a meaning filter is present and the explanation iff
`explain` is set. -/
noncomputable def build_results (q : Query) (l : List Entry) : List QueryResult :=
  l.map fun (entry : Entry) =>
    let score := q.meaning.map fun m => cosine_similarity entry.meaning m.vector
    { entry := entry,
      similarity_score := score,
      explanation :=
        if q.explain then some (generate_explanation entry q score) else none }

/-- Steps 4-6 of `query` after the precise expression re-filter: context,
temporal and relation predicates, the limit, and result construction. -/
noncomputable def precise_stage (s : Store) (q : Query) (afterExpr : List Entry) :
    List QueryResult :=
  build_results q (limit_stage q (relation_stage s q (temporal_stage q (context_stage q afterExpr))))

/-- sqlite.rs `query` (the `StorageBackend` impl), assembled from the
stages above: coarse narrowing (with its early empty return),
materialization, similarity ranking, precise re-filtering, limit, and
result construction.  Each `?`-propagation of the source is the
error-passing `match` here. -/
noncomputable def Store.query (s : Store) (q : Query) :
    Except StorageError (List QueryResult) :=
  match coarse_candidates s q with
  | .error err => .error err
  | .ok candidate =>
    if coarse_is_empty candidate then .ok []
    else
      match materialize s candidate with
      | .error err => .error err
      | .ok materialized =>
        match expression_stage q (rank_stage q materialized) with
        | .error err => .error err
        | .ok afterExpr => .ok (precise_stage s q afterExpr)

/-! Specification-side definitions, written from the words of the spec and
compared with the source-derived definitions above by the theorems below. -/

/-- Spec §4.3 step 3, first clause: sort the materialized entries by cosine
similarity to the query vector, descending (stable). -/
noncomputable def specSortByMeaning (mf : MeaningFilter) (entries : List Entry) :
    List Entry :=
  entries.mergeSort fun a b =>
    decide (cosine_similarity b.meaning mf.vector ≤ cosine_similarity a.meaning mf.vector)

/-- Spec §4.3 step 3, second clause: discard entries below the inclusive
threshold if one is set. -/
noncomputable def specDiscardBelowThreshold (mf : MeaningFilter) (entries : List Entry) :
    List Entry :=
  match mf.threshold with
  | some t => entries.filter fun e => decide (t ≤ cosine_similarity e.meaning mf.vector)
  | none => entries

/-- Spec §4.3 step 3, third clause: truncate to `top_k` if set. -/
def specTruncateTopK (mf : MeaningFilter) (entries : List Entry) : List Entry :=
  match mf.top_k with
  | some k => entries.take k
  | none => entries

/-- The pure acceptance value of an expression filter (what
`matches_expression` returns when it does not error; a `Matches` filter
with an invalid pattern accepts nothing). -/
def expression_filter_accepts (f : ExpressionFilter) (x : String) : Bool :=
  match f with
  | .equals s => x == s
  | .contains s => decide (s.toLower.toList <:+: x.toLower.toList)
  | .startsWith s => decide (s.toList <+: x.toList)
  | .matches p => p.valid && p.regex_matches x

/-- Spec §4.3 step 4: an entry satisfies every present filter under the
precise predicates (expression, context, temporal, relation — the meaning
filter ranks rather than predicates). -/
def precise_match (s : Store) (q : Query) (e : Entry) : Prop :=
  (∀ f, q.expression = some f → matches_expression e.expression f = .ok true) ∧
  (∀ f, q.context = some f → matches_context e.context f = true) ∧
  (∀ f, q.temporal = some f → matches_temporal e f = true) ∧
  (∀ f, q.relations = some f →
    relation_filter_accepts (load_relation_index s) f e = true)

/-- A well-formed store: the `entries` table's primary key makes row ids
unique. -/
def Store.WF (s : Store) : Prop :=
  (s.entries.map fun r => r.id).Nodup

/-- Spec §3/§4.2: a stored directed edge read as bidirectional. -/
def Adjacent (edges : List (Nat × Nat)) (a b : Nat) : Prop :=
  (a, b) ∈ edges ∨ (b, a) ∈ edges

/-- Spec §4.2: reachability from `src` in exactly `k` undirected edge
traversals. -/
inductive ReachesIn (edges : List (Nat × Nat)) (src : Nat) : Nat → Nat → Prop where
  | refl : ReachesIn edges src 0 src
  | step {k : Nat} {u v : Nat} :
      ReachesIn edges src k u → Adjacent edges u v → ReachesIn edges src (k + 1) v

/-- Spec §4.2: reachability from `src` in at most `m` undirected edge
traversals. -/
def ReachableWithin (edges : List (Nat × Nat)) (src : Nat) (m : Nat) (v : Nat) : Prop :=
  ∃ k, k ≤ m ∧ ReachesIn edges src k v

/-- The `k`-step closure of `{src}` under the adjacency of `edges`
(a computable bridge between the breadth-first search and `ReachableWithin`). -/
def ball (edges : List (Nat × Nat)) (src : Nat) : Nat → List Nat
  | 0 => [src]
  | k + 1 =>
      let prev := ball edges src k
      prev ++ prev.flatMap (adjacencyOf edges)

/-! Proof-scaffolding definitions for the breadth-first-search argument. -/

/-- The not-yet-visited neighbors that one `visitNeighbors` pass discovers,
in discovery order (each discovery immediately counts as visited for the
rest of the pass). -/
def freshOf (visited : List Nat) : List Nat → List Nat
  | [] => []
  | n :: ns =>
    if n ∈ visited then freshOf visited ns
    else n :: freshOf (n :: visited) ns

/-- The loop invariant of `bfsLoop`, with a ghost hop-level assignment `φ`
for the visited nodes: queue entries are visited nodes carrying their
level; every visited node sits in the ball of its level, which never
exceeds `max_hops`; every visited node is still queued, or was cut off at
`max_hops`, or has all its neighbors visited within one extra hop; visited
is exactly the origin plus the results; result levels are positive news
only (the origin is never a result, results are duplicate-free); queue
levels are sorted and within one hop of each other, and visited levels
exceed no queue level by more than one. -/
def BfsInv (edges : List (Nat × Nat)) (src max_hops : Nat) (φ : Nat → Nat)
    (visited results : List Nat) (queue : List (Nat × Nat)) : Prop :=
  (∀ p ∈ queue, p.1 ∈ visited ∧ p.2 = φ p.1) ∧
  (∀ w ∈ visited, w ∈ ball edges src (φ w) ∧ φ w ≤ max_hops) ∧
  (∀ w ∈ visited, (w, φ w) ∈ queue ∨ max_hops ≤ φ w ∨
    ∀ n ∈ adjacencyOf edges w, n ∈ visited ∧ φ n ≤ φ w + 1) ∧
  (∀ x, x ∈ visited ↔ x = src ∨ x ∈ results) ∧
  src ∉ results ∧
  results.Nodup ∧
  φ src = 0 ∧
  queue.Pairwise (fun p r => p.2 ≤ r.2) ∧
  (∀ p ∈ queue, ∀ r ∈ queue, p.2 ≤ r.2 + 1) ∧
  (∀ w ∈ visited, ∀ p ∈ queue, φ w ≤ p.2 + 1)

/-! Concrete instances used by the counterexamples and witnesses below. -/

/-- A stored row whose expression is `"aaa"`, with well-formed payloads. -/
def rowAAA : EntryRow :=
  { id := 1, meaning := .good [], expression := "aaa", context := .good .null,
    created_at := 0, updated_at := 0 }

/-- The entry `get` reconstructs from `rowAAA` in a store with no edges. -/
def entryAAA : Entry :=
  { id := 1, meaning := [], expression := "aaa", context := .null,
    created_at := 0, updated_at := 0, relations := [] }

/-- A store holding only `rowAAA`. -/
def storeAAA : Store := { entries := [rowAAA], edges := [] }

/-- A store holding `rowAAA` and a dangling edge `1 → 2` (no row with
id 2). -/
def storeDangling : Store := { entries := [rowAAA], edges := [(1, 2)] }

/-- The compiled regex `a+`: a valid pattern whose matcher accepts exactly
the strings containing at least one `a` — in particular `"aaa"`, which
does not contain the two-character pattern text `"a+"` as a substring. -/
def patternAPlus : Pattern :=
  { text := "a+", valid := true,
    regex_matches := fun x => x.toList.any fun c => c == 'a', err_msg := "" }

/-- The pattern `[`, which `Regex::new` rejects. -/
def patternInvalid : Pattern :=
  { text := "[", valid := false, regex_matches := fun _ => false,
    err_msg := "unclosed character class" }

/-- A query whose only filter is `Matches` with the pattern `a+`. -/
def queryMatchesAPlus : Query :=
  { Query.new with expression := some (.matches patternAPlus) }

/-- A query whose only filter is `Matches` with the invalid pattern `[`. -/
def queryMatchesInvalid : Query :=
  { Query.new with expression := some (.matches patternInvalid) }

/-- A query whose only filter is `DirectlyRelatedTo(1)`. -/
def queryRelatedTo1 : Query :=
  { Query.new with relations := some (.directlyRelatedTo 1) }

/-- An entry with id 1 and one relation, used against stores that do not
contain id 1. -/
def entryUpd : Entry :=
  { id := 1, meaning := [], expression := "", context := .null,
    created_at := 0, updated_at := 0, relations := [2] }

/-- An entry with id 1 and no relations. -/
def entryPlain : Entry :=
  { id := 1, meaning := [], expression := "", context := .null,
    created_at := 0, updated_at := 0, relations := [] }

/-- The empty store. -/
def storeEmpty : Store := { entries := [], edges := [] }

/-- A store with no entry rows but a pre-existing edge `1 → 2` (reachable
through the reference API by calling `update` with id 1 on an empty
store). -/
def storeEdgeOnly : Store := { entries := [], edges := [(1, 2)] }

/-- A row with a malformed stored meaning payload. -/
def rowBad : EntryRow :=
  { id := 7, meaning := .malformed, expression := "x", context := .good .null,
    created_at := 0, updated_at := 0 }

/-- A store holding only the malformed row. -/
def storeBad : Store := { entries := [rowBad], edges := [] }

/-- Two stored rows with ids 1 and 2 and an edge `1 → 2` (no dangling
ids). -/
def rowTwo : EntryRow :=
  { id := 2, meaning := .good [], expression := "bbb", context := .good .null,
    created_at := 0, updated_at := 0 }

/-- The entry `get` reconstructs from `rowTwo` in `storeLinked`. -/
def entryTwo : Entry :=
  { id := 2, meaning := [], expression := "bbb", context := .null,
    created_at := 0, updated_at := 0, relations := [] }

/-- A store with rows 1 and 2 and the edge `1 → 2`. -/
def storeLinked : Store := { entries := [rowAAA, rowTwo], edges := [(1, 2)] }

/-- An equality query on the expression `"aaa"`. -/
def queryEqAAA : Query := { Query.new with expression := some (.equals "aaa") }

/-- A fresh entry at clock 10. -/
def entryClock : Entry := Entry.new 1 10 [] "x"

/-! ## Theorems -/

/-! Shared helper lemmas. -/

theorem mem_adjacencyOf {edges : List (Nat × Nat)} {x y : Nat} :
    y ∈ adjacencyOf edges x ↔ Adjacent edges x y := by
  simp only [adjacencyOf, Adjacent, List.mem_append, List.mem_map, List.mem_filter]
  constructor
  · rintro (⟨p, ⟨hp, h1⟩, h2⟩ | ⟨p, ⟨hp, h1⟩, h2⟩)
    · left
      have : p = (x, y) := by
        cases p
        simp only [beq_iff_eq] at h1
        simp_all
      exact this ▸ hp
    · right
      have : p = (y, x) := by
        cases p
        simp only [beq_iff_eq] at h1
        simp_all
      exact this ▸ hp
  · rintro (h | h)
    · exact Or.inl ⟨(x, y), ⟨h, by simp⟩, rfl⟩
    · exact Or.inr ⟨(y, x), ⟨h, by simp⟩, rfl⟩

theorem adjacent_symm {edges : List (Nat × Nat)} {x y : Nat} :
    Adjacent edges x y ↔ Adjacent edges y x := by
  unfold Adjacent; tauto

theorem get_ok_iff {s : Store} {id : Nat} {e : Entry} :
    s.get id = .ok e ↔ ∃ r, (s.entries.find? fun r => r.id == id) = some r ∧
      r.meaning.decode = some e.meaning ∧ r.context.decode = some e.context ∧
      e.id = id ∧ e.expression = r.expression ∧ e.created_at = r.created_at ∧
      e.updated_at = r.updated_at ∧
      e.relations = (s.edges.filter fun p => p.1 == id).map fun p => p.2 := by
  unfold Store.get
  cases hf : s.entries.find? fun r => r.id == id with
  | none => simp
  | some r =>
    cases hm : r.meaning.decode with
    | none => simp [hm]
    | some m =>
      cases hc : r.context.decode with
      | none => simp [hm, hc]
      | some c =>
        simp only [hm, hc, Except.ok.injEq]
        constructor
        · rintro rfl
          exact ⟨r, rfl, hm, hc, rfl, rfl, rfl, rfl, rfl⟩
        · rintro ⟨r', hr', hm', hc', hid, hexpr, hcr, hup, hrel⟩
          cases hr'
          rw [hm] at hm'
          rw [hc] at hc'
          cases e
          simp_all

theorem get_ok_id {s : Store} {id : Nat} {e : Entry} (h : s.get id = .ok e) :
    e.id = id := by
  rcases get_ok_iff.mp h with ⟨r, _, _, _, hid, _⟩
  exact hid

theorem get_ok_id_stored {s : Store} {id : Nat} {e : Entry} (h : s.get id = .ok e) :
    e.id ∈ s.entries.map fun r => r.id := by
  rcases get_ok_iff.mp h with ⟨r, hfind, _, _, hid, _⟩
  have hmem := List.mem_of_find?_eq_some hfind
  have hpred := List.find?_some hfind
  simp only [beq_iff_eq] at hpred
  subst hid
  rw [← hpred]
  exact List.mem_map_of_mem _ hmem

theorem get_each_mem_of {s : Store} {ids : List Nat} {out : List Entry} {e : Entry}
    (h : get_each s ids = .ok out) (he : e ∈ out) :
    ∃ id ∈ ids, s.get id = .ok e := by
  induction ids generalizing out with
  | nil =>
    cases h
    cases he
  | cons id ids ih =>
    unfold get_each at h
    cases hg : s.get id with
    | error err => rw [hg] at h; cases h
    | ok e₀ =>
      rw [hg] at h
      cases hrest : get_each s ids with
      | error err => rw [hrest] at h; cases h
      | ok rest =>
        rw [hrest] at h
        cases h
        rcases List.mem_cons.mp he with rfl | hmem
        · exact ⟨id, List.mem_cons_self id ids, hg⟩
        · rcases ih hrest hmem with ⟨id', hid', hget'⟩
          exact ⟨id', List.mem_cons_of_mem id hid', hget'⟩

theorem get_each_mem {s : Store} {ids : List Nat} {out : List Entry} {id : Nat} {e : Entry}
    (h : get_each s ids = .ok out) (hid : id ∈ ids) (hget : s.get id = .ok e) :
    e ∈ out := by
  induction ids generalizing out with
  | nil => cases hid
  | cons id₀ ids ih =>
    unfold get_each at h
    cases hg : s.get id₀ with
    | error err => rw [hg] at h; cases h
    | ok e₀ =>
      rw [hg] at h
      cases hrest : get_each s ids with
      | error err => rw [hrest] at h; cases h
      | ok rest =>
        rw [hrest] at h
        cases h
        rcases List.mem_cons.mp hid with rfl | hmem
        · rw [hget] at hg
          cases hg
          exact List.mem_cons_self _ _
        · exact List.mem_cons_of_mem _ (ih hrest hmem)

theorem matches_expression_eq_accepts {f : ExpressionFilter}
    (hf : ∀ p, f = .matches p → p.valid = true) (x : String) :
    matches_expression x f = .ok (expression_filter_accepts f x) := by
  rcases f with s | s | s | p
  · rfl
  · rfl
  · rfl
  · have hv := hf p rfl
    simp [matches_expression, expression_filter_accepts, hv]

theorem filter_entries_ok {f : ExpressionFilter}
    (hf : ∀ p, f = .matches p → p.valid = true) (l : List Entry) :
    filter_entries_by_expression f l =
      .ok (l.filter fun e => expression_filter_accepts f e.expression) := by
  induction l with
  | nil => rfl
  | cons e es ih =>
    unfold filter_entries_by_expression
    rw [matches_expression_eq_accepts hf, ih]
    by_cases hb : expression_filter_accepts f e.expression
    · simp [hb]
    · simp [hb]

theorem mem_rank_by_meaning {mf : MeaningFilter} {l : List Entry} {e : Entry}
    (h : e ∈ rank_by_meaning mf l) : e ∈ l := by
  rcases mf with ⟨vec, thr, topk⟩
  unfold rank_by_meaning at h
  cases topk with
  | none =>
    cases thr with
    | none => simpa using h
    | some t =>
      simp only at h
      exact List.mem_mergeSort.mp (List.mem_of_mem_filter h)
  | some k =>
    simp only at h
    have h' := List.take_subset _ _ h
    cases thr with
    | none => simpa using h'
    | some t => exact List.mem_mergeSort.mp (List.mem_of_mem_filter h')

theorem mem_insert_edges {edges : List (Nat × Nat)} {id : Nat} {rels : List Nat}
    {a b : Nat} :
    (a, b) ∈ insert_edges edges id rels ↔ (a, b) ∈ edges ∨ (a = id ∧ b ∈ rels) := by
  induction rels generalizing edges with
  | nil => simp [insert_edges]
  | cons r rs ih =>
    unfold insert_edges at ih ⊢
    simp only [List.foldl_cons]
    by_cases hc : (id, r) ∈ edges
    · rw [if_pos (by simpa using hc), ih]
      constructor
      · rintro (hp | ⟨rfl, h2⟩)
        · exact Or.inl hp
        · exact Or.inr ⟨rfl, List.mem_cons_of_mem _ h2⟩
      · rintro (hp | ⟨rfl, h2⟩)
        · exact Or.inl hp
        · rcases List.mem_cons.mp h2 with rfl | h2
          · exact Or.inl hc
          · exact Or.inr ⟨rfl, h2⟩
    · rw [if_neg (by simpa using hc), ih]
      simp only [List.mem_append, List.mem_singleton, Prod.mk.injEq]
      constructor
      · rintro ((hp | ⟨rfl, rfl⟩) | ⟨rfl, h2⟩)
        · exact Or.inl hp
        · exact Or.inr ⟨rfl, List.mem_cons_self _ _⟩
        · exact Or.inr ⟨rfl, List.mem_cons_of_mem _ h2⟩
      · rintro (hp | ⟨rfl, h2⟩)
        · exact Or.inl (Or.inl hp)
        · rcases List.mem_cons.mp h2 with rfl | h2
          · exact Or.inl (Or.inr ⟨rfl, rfl⟩)
          · exact Or.inr ⟨rfl, h2⟩

theorem cosine_similarity_of_ne_length {a b : List ℝ} (h : a.length ≠ b.length) :
    cosine_similarity a b = 0 := by
  simp [cosine_similarity, h]

theorem cosine_similarity_of_eq_length {a b : List ℝ} (h : a.length = b.length) :
    cosine_similarity a b =
      if Real.sqrt ((a.map fun x => x * x).sum) = 0 ∨
          Real.sqrt ((b.map fun x => x * x).sum) = 0 then 0
      else
        (List.zipWith (fun x y => x * y) a b).sum /
          (Real.sqrt ((a.map fun x => x * x).sum) *
            Real.sqrt ((b.map fun x => x * x).sum)) := by
  simp only [cosine_similarity]
  rw [if_neg (by simpa using h)]

/-- C7: `cosine_similarity` returns 0 when the lengths differ; returns 0
when either Euclidean magnitude is exactly zero; otherwise returns
`dot(a,b) / (|a| * |b|)`; and it is symmetric. -/
theorem C7_cosine_similarity_spec (a b : List ℝ) :
    (a.length ≠ b.length → cosine_similarity a b = 0) ∧
    (Real.sqrt ((a.map fun x => x * x).sum) = 0 ∨
        Real.sqrt ((b.map fun x => x * x).sum) = 0 →
      cosine_similarity a b = 0) ∧
    (a.length = b.length →
      Real.sqrt ((a.map fun x => x * x).sum) ≠ 0 →
      Real.sqrt ((b.map fun x => x * x).sum) ≠ 0 →
      cosine_similarity a b =
        (List.zipWith (fun x y => x * y) a b).sum /
          (Real.sqrt ((a.map fun x => x * x).sum) *
            Real.sqrt ((b.map fun x => x * x).sum))) ∧
    cosine_similarity a b = cosine_similarity b a := by
  refine ⟨fun h => cosine_similarity_of_ne_length h, ?_, ?_, ?_⟩
  · intro h
    by_cases hlen : a.length = b.length
    · rw [cosine_similarity_of_eq_length hlen, if_pos h]
    · exact cosine_similarity_of_ne_length hlen
  · intro hlen ha hb
    rw [cosine_similarity_of_eq_length hlen, if_neg (by push_neg; exact ⟨ha, hb⟩)]
  · by_cases hlen : a.length = b.length
    · rw [cosine_similarity_of_eq_length hlen, cosine_similarity_of_eq_length hlen.symm]
      have hzip : List.zipWith (fun x y : ℝ => x * y) a b =
          List.zipWith (fun x y : ℝ => x * y) b a :=
        List.zipWith_comm_of_comm _ mul_comm a b
      by_cases hz : Real.sqrt ((a.map fun x => x * x).sum) = 0 ∨
          Real.sqrt ((b.map fun x => x * x).sum) = 0
      · rw [if_pos hz, if_pos (Or.symm hz)]
      · rw [if_neg hz, if_neg fun hc => hz (Or.symm hc), hzip, mul_comm]
    · rw [cosine_similarity_of_ne_length hlen,
        cosine_similarity_of_ne_length fun hc => hlen hc.symm]

/-- Witness for C7 at concrete inputs: a length mismatch, a zero-magnitude
vector, the generic quotient case, and symmetry. -/
theorem C7_cosine_similarity_spec_witness :
    cosine_similarity [(1 : ℝ)] [1, 0] = 0 ∧
    cosine_similarity [(0 : ℝ)] [1] = 0 ∧
    cosine_similarity [(1 : ℝ)] [1] =
      (List.zipWith (fun x y => x * y) [(1 : ℝ)] [1]).sum /
        (Real.sqrt ((([(1 : ℝ)]).map fun x => x * x).sum) *
          Real.sqrt ((([(1 : ℝ)]).map fun x => x * x).sum)) ∧
    cosine_similarity [(1 : ℝ), 2] [3, 4] = cosine_similarity [3, 4] [(1 : ℝ), 2] := by
  refine ⟨(C7_cosine_similarity_spec [1] [1, 0]).1 (by simp),
    (C7_cosine_similarity_spec [0] [1]).2.1 (Or.inl (by simp)),
    (C7_cosine_similarity_spec [1] [1]).2.2.1 rfl ?_ ?_,
    (C7_cosine_similarity_spec [1, 2] [3, 4]).2.2.2⟩ <;>
  · simp

/-- C5: the meaning-filter stage of the query engine equals the spec's
composition — sort by similarity descending, then discard entries below
the inclusive threshold, then truncate to `top_k` — so the threshold is
applied before the `top_k` cap. -/
theorem C5_sort_threshold_topk_order (mf : MeaningFilter) (entries : List Entry) :
    rank_by_meaning mf entries =
      specTruncateTopK mf (specDiscardBelowThreshold mf (specSortByMeaning mf entries)) := by
  rcases mf with ⟨vec, thr, topk⟩
  cases thr <;> cases topk <;> rfl

/-- C2 counterexample: updating the empty store with an absent id whose
entry carries the relation `[2]` succeeds but changes the store — the edge
`(1, 2)` is inserted — so the call is not a state-preserving no-op. -/
theorem C2_counterexample :
    storeEmpty.update entryUpd = .ok storeEdgeOnly ∧ storeEdgeOnly ≠ storeEmpty := by
  refine ⟨rfl, fun h => ?_⟩
  simp [storeEdgeOnly, storeEmpty, Store.mk.injEq] at h

/-- C2 (amended): `update` on an id with no entries row returns success and
leaves the entries table unchanged, but still rewrites the relation edges
of that id: edges leaving the id are deleted and the entry's relation list
is inserted, so the whole store is unchanged only when that rewrite is
trivial. -/
theorem C2_update_missing_id (s : Store) (e : Entry)
    (h : ∀ r ∈ s.entries, r.id ≠ e.id) :
    s.update e = .ok (Store.mk s.entries
      (insert_edges (s.edges.filter fun p => !(p.1 == e.id)) e.id e.relations)) := by
  unfold Store.update
  have hmap : ∀ (l : List EntryRow), (∀ r ∈ l, r.id ≠ e.id) →
      (l.map fun r =>
        if r.id == e.id then
          { r with meaning := .good e.meaning, expression := e.expression,
                   context := .good e.context, updated_at := e.updated_at }
        else r) = l := by
    intro l hl
    induction l with
    | nil => rfl
    | cons r rs ih =>
      simp only [List.map_cons]
      rw [if_neg (by simpa using hl r (List.mem_cons_self r rs)),
        ih fun x hx => hl x (List.mem_cons_of_mem r hx)]
  rw [hmap s.entries h]

/-- Witness for C2's amended theorem on the empty store. -/
theorem C2_update_missing_id_witness :
    (∀ r ∈ storeEmpty.entries, r.id ≠ entryUpd.id) ∧
    storeEmpty.update entryUpd = .ok (Store.mk storeEmpty.entries
      (insert_edges (storeEmpty.edges.filter fun p => !(p.1 == entryUpd.id))
        entryUpd.id entryUpd.relations)) :=
  ⟨by simp [storeEmpty], C2_update_missing_id storeEmpty entryUpd (by simp [storeEmpty])⟩

/-- C4 counterexample: a stored row whose meaning payload does not decode
makes `get` fail with `NotFound(7)` — the malformed-payload failure is
downgraded to the not-found kind instead of surfacing as a Serialization
error. -/
theorem C4_counterexample :
    rowBad.meaning.decode = none ∧ storeBad.get 7 = .error (.notFound 7) :=
  ⟨rfl, rfl⟩

/-- C4 (amended): a missing id surfaces as `NotFound` with that id, but a
malformed stored payload on read also surfaces as `NotFound(id)` — the
decode failure inside the row closure is caught by
`.map_err(|_| NotFound(id))` and downgraded, not reported as a
Serialization error. -/
theorem C4_get_error_kinds (s : Store) (id : Nat) :
    ((∀ r ∈ s.entries, r.id ≠ id) → s.get id = .error (.notFound id)) ∧
    (∀ r, (s.entries.find? fun r => r.id == id) = some r →
      r.meaning.decode = none ∨ r.context.decode = none →
      s.get id = .error (.notFound id)) := by
  constructor
  · intro h
    unfold Store.get
    rw [List.find?_eq_none.mpr fun r hr => by simpa using h r hr]
  · intro r hfind hdec
    unfold Store.get
    rw [hfind]
    rcases hdec with h | h <;>
      cases hm : r.meaning.decode <;> cases hc : r.context.decode <;> simp_all

/-- Witness for C4's amended theorem: a missing id on the empty store and
the malformed row of `storeBad`. -/
theorem C4_get_error_kinds_witness :
    storeEmpty.get 5 = .error (.notFound 5) ∧
    storeBad.get 7 = .error (.notFound 7) :=
  ⟨(C4_get_error_kinds storeEmpty 5).1 (by simp [storeEmpty]),
    (C4_get_error_kinds storeBad 7).2 rowBad rfl (Or.inl rfl)⟩

/-- C10: a query whose expression filter is `Matches` with a pattern the
regex compiler rejects fails as a whole — the coarse narrowing step
propagates the `Invalid regex` database error and no result list is
produced. -/
theorem C10_invalid_regex_fails_query (s : Store) (q : Query) (p : Pattern)
    (hq : q.expression = some (.matches p)) (hp : p.valid = false) :
    s.query q = .error (.database ("Invalid regex: " ++ p.err_msg)) := by
  unfold Store.query coarse_candidates
  rw [hq]
  simp [query_expression_ids, hp]

/-- Witness for C10: the invalid pattern `[` against a one-row store. -/
theorem C10_invalid_regex_fails_query_witness :
    queryMatchesInvalid.expression = some (.matches patternInvalid) ∧
    patternInvalid.valid = false ∧
    storeAAA.query queryMatchesInvalid =
      .error (.database ("Invalid regex: " ++ patternInvalid.err_msg)) :=
  ⟨rfl, rfl, C10_invalid_regex_fails_query storeAAA queryMatchesInvalid patternInvalid rfl rfl⟩

/-- C8 counterexample: `with_context` changes the mutable `context` field
of a freshly constructed entry but leaves `updated_at` unchanged, so
`updated_at` does not advance on every mutable-field change. -/
theorem C8_counterexample :
    (entryClock.with_context (.str "m")).context ≠ entryClock.context ∧
    (entryClock.with_context (.str "m")).updated_at = entryClock.updated_at := by
  refine ⟨fun h => ?_, rfl⟩
  simp only [Entry.with_context, entryClock, Entry.new] at h
  exact JsonValue.noConfusion h

/-- C8 (amended): `created_at` is set at construction (equal to
`updated_at`) and is never rewritten by `add_relation`, `with_context` or
the storage `update`; a fresh `add_relation` stamps `updated_at` with the
clock (so it strictly advances whenever the clock has) and appends the id;
a duplicate `add_relation` is a full no-op; the `≥ created_at` invariant is
preserved under a monotone clock — but `with_context` changes the context
without advancing `updated_at`. -/
theorem C8_timestamp_invariants (e : Entry) (id now rid : Nat) (m : List ℝ)
    (x : String) (ctx : JsonValue) (s : Store) (e' : Entry) :
    ((Entry.new id now m x).created_at = now ∧ (Entry.new id now m x).updated_at = now) ∧
    (rid ∉ e.relations →
      (e.add_relation now rid).created_at = e.created_at ∧
      (e.add_relation now rid).updated_at = now ∧
      (e.add_relation now rid).relations = e.relations ++ [rid]) ∧
    (rid ∉ e.relations → e.updated_at < now →
      e.updated_at < (e.add_relation now rid).updated_at) ∧
    (rid ∈ e.relations → e.add_relation now rid = e) ∧
    ((e.with_context ctx).created_at = e.created_at ∧
      (e.with_context ctx).updated_at = e.updated_at) ∧
    (e.created_at ≤ e.updated_at → e.updated_at ≤ now →
      (e.add_relation now rid).created_at ≤ (e.add_relation now rid).updated_at) ∧
    (∀ s', s.update e' = .ok s' →
      s'.entries.map (fun r => (r.id, r.created_at)) =
        s.entries.map fun r => (r.id, r.created_at)) := by
  refine ⟨⟨rfl, rfl⟩, ?_, ?_, ?_, ⟨rfl, rfl⟩, ?_, ?_⟩
  · intro h
    unfold Entry.add_relation
    rw [if_neg (by simpa using h)]
    exact ⟨rfl, rfl, rfl⟩
  · intro h hlt
    unfold Entry.add_relation
    rw [if_neg (by simpa using h)]
    exact hlt
  · intro h
    unfold Entry.add_relation
    rw [if_pos (by simpa using h)]
  · intro h1 h2
    unfold Entry.add_relation
    by_cases hc : rid ∈ e.relations
    · rw [if_pos (by simpa using hc)]
      exact h1
    · rw [if_neg (by simpa using hc)]
      exact le_trans h1 h2
  · intro s' hupd
    unfold Store.update at hupd
    cases hupd
    simp only [List.map_map]
    apply List.map_congr_left
    intro r _
    by_cases hid : r.id = e'.id <;> simp [hid]

/-- Witness for C8's amended theorem: a fresh add at clock 20, a duplicate
add at clock 30, `with_context`, and an `update` on the empty store. -/
theorem C8_timestamp_invariants_witness :
    ((entryClock.add_relation 20 5).created_at = entryClock.created_at ∧
      (entryClock.add_relation 20 5).updated_at = 20 ∧
      (entryClock.add_relation 20 5).relations = entryClock.relations ++ [5]) ∧
    entryClock.updated_at < (entryClock.add_relation 20 5).updated_at ∧
    (entryClock.add_relation 20 5).add_relation 30 5 = entryClock.add_relation 20 5 ∧
    (entryClock.add_relation 20 5).created_at ≤ (entryClock.add_relation 20 5).updated_at ∧
    storeEmpty.entries.map (fun r => (r.id, r.created_at)) =
      storeEmpty.entries.map fun r => (r.id, r.created_at) := by
  have h₁ := C8_timestamp_invariants entryClock 1 20 5 [] "x" .null storeEmpty entryPlain
  have h₂ := C8_timestamp_invariants (entryClock.add_relation 20 5) 1 30 5 [] "x" .null
    storeEmpty entryPlain
  have hfresh : 5 ∉ entryClock.relations := by
    simp [entryClock, Entry.new]
  have hdup : 5 ∈ (entryClock.add_relation 20 5).relations := by
    rw [((C8_timestamp_invariants entryClock 1 20 5 [] "x" .null storeEmpty
      entryPlain).2.1 hfresh).2.2]
    simp
  refine ⟨h₁.2.1 hfresh, h₁.2.2.1 hfresh (by simp [entryClock, Entry.new]),
    h₂.2.2.2.1 hdup, h₁.2.2.2.2.2.1 ?_ ?_, rfl⟩
  · simp [entryClock, Entry.new]
  · simp [entryClock, Entry.new]

/-- C9 counterexample: inserting an entry with no relations into a store
whose id is absent but which already holds the edge `1 → 2` (a state the
API reaches via `update` on a nonexistent id) succeeds, and the following
`get` returns relations `[2]` — not the inserted entry's empty relation
set. -/
theorem C9_counterexample :
    ((storeEdgeOnly.insert entryPlain).bind fun s' => s'.get 1) =
      .ok { entryPlain with relations := [2] } ∧
    2 ∉ entryPlain.relations := by
  refine ⟨rfl, ?_⟩
  simp [entryPlain]

/-- C9 (amended): inserting `e` into a store that contains neither an
entries row with `e.id` nor a relation edge leaving `e.id`, and then
calling `get e.id`, succeeds and reproduces id, meaning, expression and
context exactly, and the relations as an unordered set. -/
theorem C9_insert_get_roundtrip (s : Store) (e : Entry)
    (hid : e.id ∉ s.entries.map fun r => r.id)
    (hedge : ∀ x, (e.id, x) ∉ s.edges) :
    ∃ s', s.insert e = .ok s' ∧
      ∃ r, s'.get e.id = .ok r ∧ r.id = e.id ∧ r.meaning = e.meaning ∧
        r.expression = e.expression ∧ r.context = e.context ∧
        (∀ x, x ∈ r.relations ↔ x ∈ e.relations) := by
  unfold Store.insert
  rw [if_neg (by simpa using hid)]
  refine ⟨_, rfl, ?_⟩
  have h1 : (s.entries.find? fun r => r.id == e.id) = none :=
    List.find?_eq_none.mpr fun r hr => by
      simp only [beq_iff_eq]
      intro hre
      exact hid (hre ▸ List.mem_map_of_mem _ hr)
  refine ⟨Entry.mk e.id e.meaning e.expression e.context e.created_at e.updated_at
      (((insert_edges s.edges e.id e.relations).filter
        fun p => p.1 == e.id).map fun p => p.2),
    get_ok_iff.mpr ⟨EntryRow.mk e.id (.good e.meaning) e.expression (.good e.context)
      e.created_at e.updated_at, ?_,
      rfl, rfl, rfl, rfl, rfl, rfl, rfl⟩, rfl, rfl, rfl, rfl, ?_⟩
  · rw [List.find?_append, h1]
    simp
  · intro x
    simp only [List.mem_map, List.mem_filter, beq_iff_eq]
    constructor
    · rintro ⟨⟨pa, pb⟩, ⟨hp, h2⟩, rfl⟩
      simp only at h2
      subst h2
      rcases mem_insert_edges.mp hp with hmem | ⟨_, hb⟩
      · exact absurd hmem (hedge pb)
      · exact hb
    · intro hx
      exact ⟨(e.id, x), ⟨mem_insert_edges.mpr (Or.inr ⟨rfl, hx⟩), rfl⟩, rfl⟩

theorem filter_entries_subset {f : ExpressionFilter} {l out : List Entry}
    (h : filter_entries_by_expression f l = .ok out) : ∀ e ∈ out, e ∈ l := by
  induction l generalizing out with
  | nil =>
    cases h
    intro e he
    cases he
  | cons x xs ih =>
    unfold filter_entries_by_expression at h
    cases hm : matches_expression x.expression f with
    | error err => rw [hm] at h; cases h
    | ok b =>
      rw [hm] at h
      cases hrest : filter_entries_by_expression f xs with
      | error err => rw [hrest] at h; cases h
      | ok rest =>
        rw [hrest] at h
        intro e he
        cases b
        · cases h
          exact List.mem_cons_of_mem _ (ih hrest e he)
        · cases h
          rcases List.mem_cons.mp he with rfl | hm2
          · exact List.mem_cons_self _ _
          · exact List.mem_cons_of_mem _ (ih hrest e hm2)

theorem expression_stage_subset {q : Query} {l out : List Entry}
    (h : expression_stage q l = .ok out) : ∀ e ∈ out, e ∈ l := by
  unfold expression_stage at h
  cases hqe : q.expression with
  | none =>
    rw [hqe] at h
    cases h
    exact fun e he => he
  | some f =>
    rw [hqe] at h
    exact filter_entries_subset h

theorem rank_stage_subset {q : Query} {l : List Entry} :
    ∀ e ∈ rank_stage q l, e ∈ l := by
  intro e he
  unfold rank_stage at he
  cases hqm : q.meaning with
  | none => rw [hqm] at he; exact he
  | some mf => rw [hqm] at he; exact mem_rank_by_meaning he

theorem materialize_mem_of {s : Store} {candidate : Option (List Nat)}
    {out : List Entry} {e : Entry} (h : materialize s candidate = .ok out)
    (he : e ∈ out) : ∃ id, s.get id = .ok e := by
  unfold materialize get_entries_by_ids get_all_entries at h
  cases candidate with
  | some ids =>
    rcases get_each_mem_of h he with ⟨id, _, hg⟩
    exact ⟨id, hg⟩
  | none =>
    rcases get_each_mem_of h he with ⟨id, _, hg⟩
    exact ⟨id, hg⟩

theorem mem_context_stage {q : Query} {l : List Entry} {e : Entry} :
    e ∈ context_stage q l ↔
      e ∈ l ∧ ∀ f, q.context = some f → matches_context e.context f = true := by
  unfold context_stage
  cases hqc : q.context with
  | none => simp
  | some f => simp [List.mem_filter]

theorem mem_temporal_stage {q : Query} {l : List Entry} {e : Entry} :
    e ∈ temporal_stage q l ↔
      e ∈ l ∧ ∀ f, q.temporal = some f → matches_temporal e f = true := by
  unfold temporal_stage
  cases hqt : q.temporal with
  | none => simp
  | some f => simp [List.mem_filter]

theorem mem_relation_stage {s : Store} {q : Query} {l : List Entry} {e : Entry} :
    e ∈ relation_stage s q l ↔
      e ∈ l ∧ ∀ f, q.relations = some f →
        relation_filter_accepts (load_relation_index s) f e = true := by
  unfold relation_stage
  cases hqr : q.relations with
  | none => simp [hqr]
  | some rf => simp [hqr, List.mem_filter]

theorem limit_stage_subset {q : Query} {l : List Entry} :
    ∀ e ∈ limit_stage q l, e ∈ l := by
  intro e he
  unfold limit_stage at he
  cases hql : q.limit with
  | none => rw [hql] at he; exact he
  | some n => rw [hql] at he; exact List.take_subset _ _ he

theorem limit_stage_none {q : Query} {l : List Entry} (h : q.limit = none) :
    limit_stage q l = l := by
  unfold limit_stage
  rw [h]

theorem mem_build_results {q : Query} {l : List Entry} {e : Entry} :
    (∃ r ∈ build_results q l, r.entry = e) ↔ e ∈ l := by
  unfold build_results
  constructor
  · rintro ⟨r, hr, hre⟩
    rcases List.mem_map.mp hr with ⟨entry, hmem, rfl⟩
    exact hre ▸ hmem
  · intro he
    exact ⟨_, List.mem_map_of_mem _ he, rfl⟩

theorem precise_stage_sound {s : Store} {q : Query} {afterExpr : List Entry}
    {r : QueryResult} (h : r ∈ precise_stage s q afterExpr) :
    r.entry ∈ afterExpr ∧
    (∀ f, q.context = some f → matches_context r.entry.context f = true) ∧
    (∀ f, q.temporal = some f → matches_temporal r.entry f = true) ∧
    (∀ f, q.relations = some f →
      relation_filter_accepts (load_relation_index s) f r.entry = true) := by
  unfold precise_stage build_results at h
  rcases List.mem_map.mp h with ⟨entry, hmem, rfl⟩
  have h1 := limit_stage_subset _ hmem
  have h2 := mem_relation_stage.mp h1
  have h3 := mem_temporal_stage.mp h2.1
  have h4 := mem_context_stage.mp h3.1
  exact ⟨h4.1, h4.2, h3.2, h2.2⟩

theorem rank_stage_none {q : Query} {l : List Entry} (h : q.meaning = none) :
    rank_stage q l = l := by
  unfold rank_stage
  rw [h]

theorem query_expression_ids_eq_accepts {s : Store} {f : ExpressionFilter}
    (hf : ∀ p, f ≠ .matches p) :
    query_expression_ids s f = .ok (((s.entries.filter fun r =>
      expression_filter_accepts f r.expression).map fun r => r.id).dedup) := by
  rcases f with v | v | v | p
  · rfl
  · rfl
  · simp only [query_expression_ids, expression_filter_accepts]
    have hflt : (s.entries.filter fun r =>
        r.expression.toList.take v.toList.length == v.toList) =
        s.entries.filter fun r => decide (v.toList <+: r.expression.toList) := by
      apply List.filter_congr
      intro r _
      rw [Bool.eq_iff_iff]
      simp only [beq_iff_eq, decide_eq_true_eq]
      rw [List.prefix_iff_eq_take]
      exact eq_comm
    rw [hflt]
  · exact absurd rfl (hf p)

theorem expression_stage_mem {q : Query} {l out : List Entry}
    (hnm : ∀ p, q.expression ≠ some (.matches p))
    (h : expression_stage q l = .ok out) {e : Entry} :
    e ∈ out ↔ e ∈ l ∧ ∀ f, q.expression = some f →
      expression_filter_accepts f e.expression = true := by
  unfold expression_stage at h
  cases hqe : q.expression with
  | none =>
    rw [hqe] at h
    cases h
    simp [hqe]
  | some f =>
    rw [hqe] at h
    have hfm : ∀ p, f ≠ .matches p := fun p hp => hnm p (hqe.trans (by rw [hp]))
    have hfv : ∀ p, f = .matches p → p.valid = true := fun p hp => absurd hp (hfm p)
    have h' : filter_entries_by_expression f l = .ok out := h
    rw [filter_entries_ok hfv] at h'
    cases h'
    simp only [List.mem_filter, hqe]
    constructor
    · rintro ⟨hmem, hacc⟩
      refine ⟨hmem, fun f' hf' => ?_⟩
      cases hf'
      exact hacc
    · rintro ⟨hmem, hacc⟩
      exact ⟨hmem, hacc f rfl⟩

theorem temporal_row_accepts_entry {r : EntryRow} {e : Entry} {f : TemporalFilter}
    (hc : e.created_at = r.created_at) (hu : e.updated_at = r.updated_at) :
    temporal_row_accepts r f = matches_temporal e f := by
  cases f <;> simp [temporal_row_accepts, matches_temporal, hc, hu]

theorem mem_query_temporal_ids {s : Store} {f : TemporalFilter} {id : Nat} :
    id ∈ query_temporal_ids s f ↔
      ∃ r, r ∈ s.entries ∧ r.id = id ∧ temporal_row_accepts r f = true := by
  unfold query_temporal_ids
  rw [List.mem_dedup, List.mem_map]
  constructor
  · rintro ⟨r, hr, rfl⟩
    have := List.mem_filter.mp hr
    exact ⟨r, this.1, rfl, this.2⟩
  · rintro ⟨r, hr, rfl, hacc⟩
    exact ⟨r, List.mem_filter.mpr ⟨hr, hacc⟩, rfl⟩

theorem mem_nodesOf_append {edges : List (Nat × Nat)} {x : Nat} :
    x ∈ nodesOf edges ↔
      x ∈ (edges.map (fun p => p.1) ++ edges.map fun p => p.2) := by
  simp only [nodesOf, List.mem_flatMap, List.mem_append, List.mem_map]
  constructor
  · rintro ⟨p, hp, hx⟩
    rcases List.mem_cons.mp hx with rfl | hx
    · exact Or.inl ⟨p, hp, rfl⟩
    · rcases List.mem_singleton.mp hx with rfl
      exact Or.inr ⟨p, hp, rfl⟩
  · rintro (⟨p, hp, rfl⟩ | ⟨p, hp, rfl⟩)
    · exact ⟨p, hp, List.mem_cons_self _ _⟩
    · exact ⟨p, hp, List.mem_cons_of_mem _ (List.mem_singleton.mpr rfl)⟩

theorem mem_query_relation_ids_of_accepts {s : Store} {rf : RelationFilter} {e : Entry}
    (hacc : relation_filter_accepts (load_relation_index s) rf e = true)
    (hstored : e.id ∈ s.entries.map fun r => r.id) :
    e.id ∈ query_relation_ids s rf := by
  cases rf with
  | directlyRelatedTo x =>
    have hacc' : e.id ∈ direct_relations (load_relation_index s) x := by
      simpa [relation_filter_accepts] using hacc
    exact hacc'
  | withinDistance src max_hops =>
    have hacc' : e.id ∈ within_distance_relations (load_relation_index s) src max_hops := by
      simpa [relation_filter_accepts] using hacc
    exact hacc'
  | hasRelations =>
    have hacc' : e.id ∈ (nodesOf s.edges).dedup := by
      simpa [relation_filter_accepts, RelationIndex.related_ids,
        load_relation_index] using hacc
    show e.id ∈ has_relation_ids s
    unfold has_relation_ids
    rw [List.mem_dedup]
    exact mem_nodesOf_append.mp (List.mem_dedup.mp hacc')
  | noRelations =>
    have hacc' : e.id ∉ (nodesOf s.edges).dedup := by
      simpa [relation_filter_accepts, RelationIndex.related_ids,
        load_relation_index] using hacc
    show e.id ∈ (get_entry_ids s).filter fun id => !((has_relation_ids s).contains id)
    rw [List.mem_filter]
    have hnotin : e.id ∉ has_relation_ids s := by
      unfold has_relation_ids
      rw [List.mem_dedup]
      intro hmem
      exact hacc' (List.mem_dedup.mpr (mem_nodesOf_append.mpr hmem))
    refine ⟨List.mem_dedup.mpr hstored, by simpa using hnotin⟩

theorem coarse_after_temporal_mem {s : Store} {q : Query} {cand : Option (List Nat)}
    {id : Nat} (hcand : ∀ l, cand = some l → id ∈ l)
    (htacc : ∀ f, q.temporal = some f → id ∈ query_temporal_ids s f) :
    ∀ l, coarse_after_temporal s q cand = some l → id ∈ l := by
  intro l hl
  unfold coarse_after_temporal at hl
  cases hqt : q.temporal with
  | none =>
    rw [hqt] at hl
    exact hcand l hl
  | some f =>
    rw [hqt] at hl
    have hl' : intersectOpt cand (query_temporal_ids s f) = some l := hl
    unfold intersectOpt at hl'
    cases cand with
    | none =>
      cases hl'
      exact htacc f hqt
    | some ex =>
      cases hl'
      rw [List.mem_filter]
      refine ⟨hcand ex rfl, by simpa using htacc f hqt⟩

theorem coarse_after_relations_mem {s : Store} {q : Query} {cand : Option (List Nat)}
    {id : Nat} (hcand : ∀ l, cand = some l → id ∈ l)
    (hracc : ∀ f, q.relations = some f → id ∈ query_relation_ids s f) :
    ∀ l, coarse_after_relations s q cand = some l → id ∈ l := by
  intro l hl
  unfold coarse_after_relations at hl
  cases hqr : q.relations with
  | none =>
    rw [hqr] at hl
    exact hcand l hl
  | some f =>
    rw [hqr] at hl
    have hl' : intersectOpt cand (query_relation_ids s f) = some l := hl
    unfold intersectOpt at hl'
    cases cand with
    | none =>
      cases hl'
      exact hracc f hqr
    | some ex =>
      cases hl'
      rw [List.mem_filter]
      refine ⟨hcand ex rfl, by simpa using hracc f hqr⟩

theorem coarse_complete {s : Store} {q : Query} {candidate : Option (List Nat)}
    {id : Nat} {e : Entry}
    (hnm : ∀ p, q.expression ≠ some (.matches p))
    (hcc : coarse_candidates s q = .ok candidate)
    (hget : s.get id = .ok e)
    (hpm : precise_match s q e) :
    ∀ ids, candidate = some ids → id ∈ ids := by
  rcases get_ok_iff.mp hget with
    ⟨r₀, hfind, _, _, hid, hexpr, hcr, hup, _⟩
  have hr₀mem := List.mem_of_find?_eq_some hfind
  have hr₀id : r₀.id = id := by simpa using List.find?_some hfind
  have hstored : e.id ∈ s.entries.map fun r => r.id := get_ok_id_stored hget
  have htacc : ∀ f, q.temporal = some f → id ∈ query_temporal_ids s f := by
    intro f hf
    refine mem_query_temporal_ids.mpr ⟨r₀, hr₀mem, hr₀id, ?_⟩
    rw [temporal_row_accepts_entry hcr hup]
    exact hpm.2.2.1 f hf
  have hracc : ∀ f, q.relations = some f → id ∈ query_relation_ids s f := by
    intro f hf
    have := mem_query_relation_ids_of_accepts (hpm.2.2.2 f hf) hstored
    rwa [hid] at this
  unfold coarse_candidates at hcc
  cases hqe : q.expression with
  | none =>
    rw [hqe] at hcc
    have hcc' : (Except.ok (coarse_after_relations s q (coarse_after_temporal s q none)) :
        Except StorageError (Option (List Nat))) = Except.ok candidate := hcc
    cases hcc'
    exact coarse_after_relations_mem
      (coarse_after_temporal_mem (fun l hl => by cases hl) htacc) hracc
  | some f =>
    rw [hqe] at hcc
    have hfm : ∀ p, f ≠ .matches p := fun p hp => hnm p (hqe.trans (by rw [hp]))
    have hcc' : (match query_expression_ids s f with
        | Except.error err => Except.error err
        | Except.ok ids => Except.ok (coarse_after_relations s q
            (coarse_after_temporal s q (intersectOpt none ids)))) =
        (Except.ok candidate : Except StorageError (Option (List Nat))) := hcc
    rw [query_expression_ids_eq_accepts hfm] at hcc'
    cases hcc'
    have hexprmem : id ∈ ((s.entries.filter fun r =>
        expression_filter_accepts f r.expression).map fun r => r.id).dedup := by
      rw [List.mem_dedup, List.mem_map]
      refine ⟨r₀, List.mem_filter.mpr ⟨hr₀mem, ?_⟩, hr₀id⟩
      rw [← hexpr]
      have h1 := hpm.1 f hqe
      rw [matches_expression_eq_accepts (fun p hp => absurd hp (hfm p))] at h1
      exact Except.ok.inj h1
    exact coarse_after_relations_mem
      (coarse_after_temporal_mem (fun l hl => by cases hl; exact hexprmem) htacc) hracc

theorem materialize_covers {s : Store} {candidate : Option (List Nat)}
    {out : List Entry} {id : Nat} {e : Entry}
    (h : materialize s candidate = .ok out) (hget : s.get id = .ok e)
    (hcand : ∀ ids, candidate = some ids → id ∈ ids) : e ∈ out := by
  unfold materialize get_entries_by_ids get_all_entries at h
  cases candidate with
  | some ids => exact get_each_mem h (hcand ids rfl) hget
  | none =>
    have hid : id ∈ s.entries.map fun r => r.id := by
      have := get_ok_id_stored hget
      rwa [get_ok_id hget] at this
    exact get_each_mem h hid hget

/-- C1 counterexample: the store holding only the expression `"aaa"` and a
query whose single filter is `Matches` with the valid pattern `a+`: the
stored entry satisfies the precise regex predicate, yet the query succeeds
with an empty result set — the coarse substring narrowing on the literal
pattern text `"a+"` under-approximates the regex and drops the entry. -/
theorem C1_counterexample :
    precise_match storeAAA queryMatchesAPlus entryAAA ∧
    storeAAA.get 1 = .ok entryAAA ∧
    storeAAA.query queryMatchesAPlus = .ok [] := by
  refine ⟨⟨?_, ?_, ?_, ?_⟩, rfl, rfl⟩
  · intro f hf
    simp only [queryMatchesAPlus, Query.new, Option.some.injEq] at hf
    rw [← hf]
    rfl
  · intro f hf
    simp [queryMatchesAPlus, Query.new] at hf
  · intro f hf
    simp [queryMatchesAPlus, Query.new] at hf
  · intro f hf
    simp [queryMatchesAPlus, Query.new] at hf

/-- C1 (amended): for queries without a meaning filter and without a
result limit, and whose expression filter is not a regex `Matches`, the
result set is exactly the set of stored, readable entries that satisfy all
present filters under the precise predicates — coarse narrowing only
over-approximates for these filters, and precise re-filtering corrects it.
For a `Matches` filter the coarse phase narrows by substring containment
of the raw pattern text, which can also under-approximate (drop entries
the regex accepts), as the counterexample shows. -/
theorem C1_query_results_iff_precise {s : Store} {q : Query} {rs : List QueryResult}
    (hm : q.meaning = none) (hl : q.limit = none)
    (hnm : ∀ p, q.expression ≠ some (.matches p))
    (hq : s.query q = .ok rs) {id : Nat} {e : Entry} (hget : s.get id = .ok e) :
    precise_match s q e ↔ ∃ r ∈ rs, r.entry = e := by
  unfold Store.query at hq
  split at hq
  · cases hq
  · rename_i candidate hcc
    split at hq
    · rename_i hemp
      cases hq
      constructor
      · intro hpm
        exfalso
        cases hcand : candidate with
        | none => rw [hcand] at hemp; cases hemp
        | some ids =>
          have hmem := coarse_complete hnm hcc hget hpm ids hcand
          rw [hcand] at hemp
          unfold coarse_is_empty at hemp
          rw [List.isEmpty_iff] at hemp
          rw [hemp] at hmem
          cases hmem
      · rintro ⟨r, hr, _⟩
        cases hr
    · rename_i hemp
      split at hq
      · cases hq
      · rename_i materialized hmz
        split at hq
        · cases hq
        · rename_i afterExpr hfe
          cases hq
          rw [rank_stage_none hm] at hfe
          constructor
          · intro hpm
            have hmat : e ∈ materialized :=
              materialize_covers hmz hget (coarse_complete hnm hcc hget hpm)
            have hafter : e ∈ afterExpr := by
              refine (expression_stage_mem hnm hfe).mpr ⟨hmat, fun f hf => ?_⟩
              have h1 := hpm.1 f hf
              have hfm : ∀ p, f ≠ .matches p :=
                fun p hp => hnm p (hf.trans (by rw [hp]))
              rw [matches_expression_eq_accepts fun p hp => absurd hp (hfm p)] at h1
              exact Except.ok.inj h1
            unfold precise_stage
            rw [limit_stage_none hl]
            refine mem_build_results.mpr ?_
            exact mem_relation_stage.mpr
              ⟨mem_temporal_stage.mpr ⟨mem_context_stage.mpr ⟨hafter, hpm.2.1⟩,
                hpm.2.2.1⟩, hpm.2.2.2⟩
          · rintro ⟨r, hr, hre⟩
            have hsound := precise_stage_sound hr
            have hafter : r.entry ∈ afterExpr := hsound.1
            have hexpr : ∀ f, q.expression = some f →
                matches_expression e.expression f = .ok true := by
              intro f hf
              have hacc := ((expression_stage_mem hnm hfe).mp hafter).2 f hf
              have hfm : ∀ p, f ≠ .matches p :=
                fun p hp => hnm p (hf.trans (by rw [hp]))
              rw [matches_expression_eq_accepts fun p hp => absurd hp (hfm p)]
              rw [hre] at hacc
              rw [hacc]
            refine ⟨hexpr, fun f hf => ?_, fun f hf => ?_, fun f hf => ?_⟩
            · exact hre ▸ hsound.2.1 f hf
            · exact hre ▸ hsound.2.2.1 f hf
            · exact hre ▸ hsound.2.2.2 f hf

/-- Witness for C1's amended theorem: an `Equals` query on the one-entry
store, whose single result is exactly the precise-predicate match. -/
theorem C1_query_results_iff_precise_witness :
    queryEqAAA.meaning = none ∧ queryEqAAA.limit = none ∧
    storeAAA.query queryEqAAA = .ok [QueryResult.mk entryAAA none none] ∧
    storeAAA.get 1 = .ok entryAAA ∧
    (precise_match storeAAA queryEqAAA entryAAA ↔
      ∃ r ∈ [QueryResult.mk entryAAA none none], r.entry = entryAAA) := by
  have hq : storeAAA.query queryEqAAA = .ok [QueryResult.mk entryAAA none none] := by rfl
  have hg : storeAAA.get 1 = .ok entryAAA := by rfl
  exact ⟨rfl, rfl, hq, hg, C1_query_results_iff_precise rfl rfl
    (fun p h => by simp [queryEqAAA, Query.new] at h) hq hg⟩

/-- C3 counterexample: on a store with one entry (id 1) and the dangling
edge `1 → 2`, a query whose only filter is `DirectlyRelatedTo(1)` fails
with `NotFound(2)` instead of succeeding with the dangling id absent —
materialization calls `get` on the dangling candidate id. -/
theorem C3_counterexample :
    storeDangling.query queryRelatedTo1 = .error (.notFound 2) := by rfl

/-- C3 (amended): building the relation index itself never fails and a
dangling id never appears in any successful result — every returned
entry's id is a stored entries-table id — but a relation-filter query
whose candidate set picks up a dangling id fails with `NotFound` of that
id during materialization rather than silently omitting it. -/
theorem C3_results_are_stored {s : Store} {q : Query} {rs : List QueryResult}
    (h : s.query q = .ok rs) :
    ∀ r ∈ rs, r.entry.id ∈ s.entries.map fun row => row.id := by
  intro r hr
  unfold Store.query at h
  split at h
  · cases h
  · split at h
    · cases h
      cases hr
    · split at h
      · cases h
      · rename_i materialized hmz
        split at h
        · cases h
        · rename_i afterExpr hfe
          cases h
          have h1 := (precise_stage_sound hr).1
          have h2 := expression_stage_subset hfe _ h1
          have h3 := rank_stage_subset _ h2
          rcases materialize_mem_of hmz h3 with ⟨id, hg⟩
          exact get_ok_id_stored hg

/-- Witness for C3's amended theorem: a successful relation query on a
store with no dangling candidate. -/
theorem C3_results_are_stored_witness :
    storeLinked.query queryRelatedTo1 = .ok [QueryResult.mk entryTwo none none] ∧
    ∀ r ∈ [QueryResult.mk entryTwo none none],
      r.entry.id ∈ storeLinked.entries.map fun row => row.id := by
  have hq : storeLinked.query queryRelatedTo1 = .ok [QueryResult.mk entryTwo none none] := by
    rfl
  exact ⟨hq, C3_results_are_stored hq⟩

theorem self_mem_ball {edges : List (Nat × Nat)} {src : Nat} :
    ∀ k, src ∈ ball edges src k := by
  intro k
  induction k with
  | zero => exact List.mem_singleton.mpr rfl
  | succ k ih => exact List.mem_append_left _ ih

theorem ball_mono_succ {edges : List (Nat × Nat)} {src : Nat} {k : Nat} :
    ∀ x ∈ ball edges src k, x ∈ ball edges src (k + 1) := fun _ hx =>
  List.mem_append_left _ hx

theorem ball_mono {edges : List (Nat × Nat)} {src : Nat} {k m : Nat} (h : k ≤ m) :
    ∀ x ∈ ball edges src k, x ∈ ball edges src m := by
  induction h with
  | refl => exact fun x hx => hx
  | step _ ih => exact fun x hx => ball_mono_succ x (ih x hx)

theorem mem_ball_succ_of_adj {edges : List (Nat × Nat)} {src k x y : Nat}
    (hx : x ∈ ball edges src k) (hy : y ∈ adjacencyOf edges x) :
    y ∈ ball edges src (k + 1) :=
  List.mem_append_right _ (List.mem_flatMap.mpr ⟨x, hx, hy⟩)

theorem mem_ball_succ_elim {edges : List (Nat × Nat)} {src k y : Nat}
    (h : y ∈ ball edges src (k + 1)) :
    y ∈ ball edges src k ∨ ∃ x ∈ ball edges src k, y ∈ adjacencyOf edges x := by
  rcases List.mem_append.mp h with h' | h'
  · exact Or.inl h'
  · exact Or.inr (List.mem_flatMap.mp h')

theorem mem_ball_iff_reaches {edges : List (Nat × Nat)} {src : Nat} :
    ∀ {k v}, v ∈ ball edges src k ↔ ∃ j, j ≤ k ∧ ReachesIn edges src j v := by
  intro k
  induction k with
  | zero =>
    intro v
    constructor
    · intro h
      rcases List.mem_singleton.mp h with rfl
      exact ⟨0, le_refl 0, .refl⟩
    · rintro ⟨j, hj, hr⟩
      rcases Nat.le_zero.mp hj with rfl
      cases hr
      exact List.mem_singleton.mpr rfl
  | succ k ih =>
    intro v
    constructor
    · intro h
      rcases mem_ball_succ_elim h with h' | ⟨x, hx, hadj⟩
      · rcases ih.mp h' with ⟨j, hj, hr⟩
        exact ⟨j, Nat.le_succ_of_le hj, hr⟩
      · rcases ih.mp hx with ⟨j, hj, hr⟩
        exact ⟨j + 1, Nat.succ_le_succ hj, .step hr (mem_adjacencyOf.mp hadj)⟩
    · rintro ⟨j, hj, hr⟩
      cases hr with
      | refl => exact self_mem_ball _
      | step hr' hadj =>
        rename_i k₀ u
        have hk₀ : k₀ ≤ k := Nat.succ_le_succ_iff.mp hj
        have hu := ih.mpr ⟨k₀, hk₀, hr'⟩
        exact mem_ball_succ_of_adj hu (mem_adjacencyOf.mpr hadj)

theorem reachableWithin_zero {edges : List (Nat × Nat)} {src v : Nat}
    (h : ReachableWithin edges src 0 v) : v = src := by
  rcases h with ⟨k, hk, hr⟩
  rcases Nat.le_zero.mp hk with rfl
  cases hr
  rfl

theorem freshOf_mem : ∀ {ns visited : List Nat} {n : Nat},
    n ∈ freshOf visited ns → n ∈ ns ∧ n ∉ visited := by
  intro ns
  induction ns with
  | nil => intro visited n h; cases h
  | cons m ms ih =>
    intro visited n h
    unfold freshOf at h
    by_cases hm : m ∈ visited
    · rw [if_pos hm] at h
      rcases ih h with ⟨h1, h2⟩
      exact ⟨List.mem_cons_of_mem _ h1, h2⟩
    · rw [if_neg hm] at h
      rcases List.mem_cons.mp h with rfl | h'
      · exact ⟨List.mem_cons_self _ _, hm⟩
      · rcases ih h' with ⟨h1, h2⟩
        exact ⟨List.mem_cons_of_mem _ h1, fun hv => h2 (List.mem_cons_of_mem _ hv)⟩

theorem freshOf_complete : ∀ {ns visited : List Nat} {n : Nat},
    n ∈ ns → n ∉ visited → n ∈ freshOf visited ns := by
  intro ns
  induction ns with
  | nil => intro visited n h; cases h
  | cons m ms ih =>
    intro visited n hn hnv
    unfold freshOf
    by_cases hm : m ∈ visited
    · rw [if_pos hm]
      rcases List.mem_cons.mp hn with rfl | h'
      · exact absurd hm hnv
      · exact ih h' hnv
    · rw [if_neg hm]
      by_cases hnm : n = m
      · exact hnm ▸ List.mem_cons_self _ _
      · rcases List.mem_cons.mp hn with rfl | h'
        · exact absurd rfl hnm
        · refine List.mem_cons_of_mem _ (ih h' ?_)
          intro hv
          rcases List.mem_cons.mp hv with rfl | hv'
          · exact hnm rfl
          · exact hnv hv'

theorem freshOf_nodup : ∀ {ns visited : List Nat}, (freshOf visited ns).Nodup := by
  intro ns
  induction ns with
  | nil => intro visited; exact List.nodup_nil
  | cons m ms ih =>
    intro visited
    unfold freshOf
    by_cases hm : m ∈ visited
    · rw [if_pos hm]
      exact ih
    · rw [if_neg hm]
      refine List.nodup_cons.mpr ⟨?_, ih⟩
      intro hmem
      exact (freshOf_mem hmem).2 (List.mem_cons_self _ _)

theorem visitNeighbors_eq : ∀ (ns visited results : List Nat)
    (queue : List (Nat × Nat)) (nh : Nat),
    visitNeighbors visited results queue nh ns =
      ((freshOf visited ns).reverse ++ visited,
       (freshOf visited ns).reverse ++ results,
       queue ++ (freshOf visited ns).map fun n => (n, nh)) := by
  intro ns
  induction ns with
  | nil => intro visited results queue nh; simp [visitNeighbors, freshOf]
  | cons n ns ih =>
    intro visited results queue nh
    by_cases h : n ∈ visited
    · have hc : visited.contains n = true := by simpa using h
      simp only [visitNeighbors, hc, if_true, freshOf, h, if_pos]
      exact ih visited results queue nh
    · have hc : visited.contains n = false := by simpa using h
      simp only [visitNeighbors, hc, Bool.false_eq_true, if_false, freshOf, h, if_neg,
        not_false_iff]
      rw [ih (n :: visited) (n :: results) (queue ++ [(n, nh)]) nh]
      simp [List.append_assoc]

theorem bfsInv_init {edges : List (Nat × Nat)} {src max_hops : Nat} :
    BfsInv edges src max_hops (fun _ => 0) [src] [] [(src, 0)] := by
  refine ⟨?_, ?_, ?_, ?_, ?_, ?_, rfl, ?_, ?_, ?_⟩
  · intro p hp
    rcases List.mem_singleton.mp hp with rfl
    exact ⟨List.mem_singleton.mpr rfl, rfl⟩
  · intro w hw
    rcases List.mem_singleton.mp hw with rfl
    exact ⟨List.mem_singleton.mpr rfl, Nat.zero_le _⟩
  · intro w hw
    rcases List.mem_singleton.mp hw with rfl
    exact Or.inl (List.mem_singleton.mpr rfl)
  · intro x
    simp
  · intro h
    cases h
  · exact List.nodup_nil
  · simp
  · intro p hp r hr
    rcases List.mem_singleton.mp hp with rfl
    exact Nat.zero_le _
  · intro w hw p hp
    rcases List.mem_singleton.mp hp with rfl
    rcases List.mem_singleton.mp hw with rfl
    exact Nat.zero_le _

theorem bfsInv_skip {edges : List (Nat × Nat)} {src max_hops : Nat} {φ : Nat → Nat}
    {visited results : List Nat} {current hops : Nat} {rest : List (Nat × Nat)}
    (inv : BfsInv edges src max_hops φ visited results ((current, hops) :: rest))
    (hge : max_hops ≤ hops) :
    BfsInv edges src max_hops φ visited results rest := by
  obtain ⟨q_vis, vis_ball, vis_done, vis_eq, src_not, res_nd, src_phi,
    q_sorted, q_close, vis_close⟩ := inv
  refine ⟨fun p hp => q_vis p (List.mem_cons_of_mem _ hp), vis_ball, ?_, vis_eq,
    src_not, res_nd, src_phi, q_sorted.of_cons,
    fun p hp r hr => q_close p (List.mem_cons_of_mem _ hp) r (List.mem_cons_of_mem _ hr),
    fun w hw p hp => vis_close w hw p (List.mem_cons_of_mem _ hp)⟩
  intro w hw
  rcases vis_done w hw with hq | hmax | hclosed
  · rcases List.mem_cons.mp hq with heq | hq'
    · right; left
      have h2 : φ w = hops := congrArg Prod.snd heq
      rw [h2]
      exact hge
    · exact Or.inl hq'
  · exact Or.inr (Or.inl hmax)
  · exact Or.inr (Or.inr hclosed)

theorem bfsInv_step {edges : List (Nat × Nat)} {src max_hops : Nat} {φ : Nat → Nat}
    {visited results : List Nat} {current hops : Nat} {rest : List (Nat × Nat)}
    (inv : BfsInv edges src max_hops φ visited results ((current, hops) :: rest))
    (hlt : hops < max_hops) :
    BfsInv edges src max_hops
      (fun n => if n ∈ freshOf visited (adjacencyOf edges current) then hops + 1 else φ n)
      ((freshOf visited (adjacencyOf edges current)).reverse ++ visited)
      ((freshOf visited (adjacencyOf edges current)).reverse ++ results)
      (rest ++ (freshOf visited (adjacencyOf edges current)).map fun n => (n, hops + 1)) := by
  obtain ⟨q_vis, vis_ball, vis_done, vis_eq, src_not, res_nd, src_phi,
    q_sorted, q_close, vis_close⟩ := inv
  set F := freshOf visited (adjacencyOf edges current) with hF
  set φ' : Nat → Nat := fun n => if n ∈ F then hops + 1 else φ n with hφ'
  have hcur := q_vis (current, hops) (List.mem_cons_self _ _)
  have hcur_vis : current ∈ visited := hcur.1
  have hcur_phi : hops = φ current := hcur.2
  have hFadj : ∀ n ∈ F, n ∈ adjacencyOf edges current := fun n hn => (freshOf_mem hn).1
  have hFnv : ∀ n ∈ F, n ∉ visited := fun n hn => (freshOf_mem hn).2
  have hsrc_vis : src ∈ visited := (vis_eq src).mpr (Or.inl rfl)
  have hres_sub : ∀ x ∈ results, x ∈ visited := fun x hx => (vis_eq x).mpr (Or.inr hx)
  have hphi_old : ∀ w ∈ visited, φ' w = φ w := fun w hw =>
    if_neg fun hwF => hFnv w hwF hw
  have hphi_new : ∀ n ∈ F, φ' n = hops + 1 := fun n hn => if_pos hn
  have hmemV : ∀ x, x ∈ F.reverse ++ visited ↔ x ∈ F ∨ x ∈ visited := by
    intro x
    simp [List.mem_append, List.mem_reverse]
  have hhead_le : ∀ r ∈ rest, hops ≤ r.2 :=
    fun r hr => (List.pairwise_cons.mp q_sorted).1 r hr
  refine ⟨?_, ?_, ?_, ?_, ?_, ?_, ?_, ?_, ?_, ?_⟩
  · intro p hp
    rcases List.mem_append.mp hp with hp | hp
    · have h0 := q_vis p (List.mem_cons_of_mem _ hp)
      refine ⟨(hmemV p.1).mpr (Or.inr h0.1), ?_⟩
      rw [hphi_old p.1 h0.1]
      exact h0.2
    · rcases List.mem_map.mp hp with ⟨n, hn, rfl⟩
      exact ⟨(hmemV n).mpr (Or.inl hn), (hphi_new n hn).symm⟩
  · intro w hw
    rcases (hmemV w).mp hw with hw | hw
    · rw [hphi_new w hw]
      have hcb : current ∈ ball edges src hops := by
        rw [hcur_phi]
        exact (vis_ball current hcur_vis).1
      exact ⟨mem_ball_succ_of_adj hcb (hFadj w hw), hlt⟩
    · rw [hphi_old w hw]
      exact vis_ball w hw
  · intro w hw
    rcases (hmemV w).mp hw with hwf | hwv
    · left
      refine List.mem_append.mpr (Or.inr ?_)
      rw [hphi_new w hwf]
      exact List.mem_map.mpr ⟨w, hwf, rfl⟩
    · by_cases hwc : w = current
      · right; right
        intro n hn
        rw [hwc] at hwv hn ⊢
        by_cases hnv : n ∈ visited
        · refine ⟨(hmemV n).mpr (Or.inr hnv), ?_⟩
          have hcl := vis_close n hnv (current, hops) (List.mem_cons_self _ _)
          rw [hphi_old n hnv, hphi_old current hwv, ← hcur_phi]
          exact hcl
        · have hnF : n ∈ F := freshOf_complete hn hnv
          refine ⟨(hmemV n).mpr (Or.inl hnF), ?_⟩
          rw [hphi_new n hnF, hphi_old current hwv, ← hcur_phi]
      · rcases vis_done w hwv with hq | hmax | hclosed
        · rcases List.mem_cons.mp hq with heq | hq'
          · exact absurd (congrArg Prod.fst heq) hwc
          · left
            rw [hphi_old w hwv]
            exact List.mem_append.mpr (Or.inl hq')
        · right; left
          rw [hphi_old w hwv]
          exact hmax
        · right; right
          intro n hn
          rcases hclosed n hn with ⟨hnv, hle⟩
          refine ⟨(hmemV n).mpr (Or.inr hnv), ?_⟩
          rw [hphi_old n hnv, hphi_old w hwv]
          exact hle
  · intro x
    rw [hmemV x, List.mem_append, List.mem_reverse, vis_eq x]
    tauto
  · intro hx
    rcases List.mem_append.mp hx with hx | hx
    · exact hFnv src (List.mem_reverse.mp hx) hsrc_vis
    · exact src_not hx
  · refine List.Nodup.append (List.nodup_reverse.mpr freshOf_nodup) res_nd ?_
    intro x hx hx'
    exact hFnv x (List.mem_reverse.mp hx) (hres_sub x hx')
  · rw [hphi_old src hsrc_vis]
    exact src_phi
  · rw [List.pairwise_append]
    refine ⟨q_sorted.of_cons, ?_, ?_⟩
    · rw [List.pairwise_map]
      have hpw : ∀ (l : List Nat),
          List.Pairwise (fun (_ _ : Nat) => hops + 1 ≤ hops + 1) l := by
        intro l
        induction l with
        | nil => exact List.Pairwise.nil
        | cons a l ih => exact List.Pairwise.cons (fun b _ => le_refl _) ih
      exact hpw F
    · intro a ha b hb
      rcases List.mem_map.mp hb with ⟨n, hn, rfl⟩
      exact q_close a (List.mem_cons_of_mem _ ha) (current, hops) (List.mem_cons_self _ _)
  · intro p hp r hr
    rcases List.mem_append.mp hp with hp | hp
    · rcases List.mem_append.mp hr with hr | hr
      · exact q_close p (List.mem_cons_of_mem _ hp) r (List.mem_cons_of_mem _ hr)
      · rcases List.mem_map.mp hr with ⟨n, hn, rfl⟩
        exact le_trans
          (q_close p (List.mem_cons_of_mem _ hp) (current, hops) (List.mem_cons_self _ _))
          (Nat.succ_le_succ (Nat.le_succ _))
    · rcases List.mem_map.mp hp with ⟨n, hn, rfl⟩
      rcases List.mem_append.mp hr with hr | hr
      · exact Nat.succ_le_succ (hhead_le r hr)
      · rcases List.mem_map.mp hr with ⟨n', hn', rfl⟩
        exact Nat.le_succ _
  · intro w hw p hp
    rcases (hmemV w).mp hw with hw | hw
    · rcases List.mem_append.mp hp with hp | hp
      · rw [hphi_new w hw]
        exact Nat.succ_le_succ (hhead_le p hp)
      · rcases List.mem_map.mp hp with ⟨n, hn, rfl⟩
        rw [hphi_new w hw]
        exact Nat.le_succ _
    · rcases List.mem_append.mp hp with hp | hp
      · rw [hphi_old w hw]
        exact vis_close w hw p (List.mem_cons_of_mem _ hp)
      · rcases List.mem_map.mp hp with ⟨n, hn, rfl⟩
        rw [hphi_old w hw]
        exact le_trans (vis_close w hw (current, hops) (List.mem_cons_self _ _))
          (Nat.succ_le_succ (Nat.le_succ _))

theorem bfsInv_final {edges : List (Nat × Nat)} {src max_hops : Nat} {φ : Nat → Nat}
    {visited results : List Nat}
    (inv : BfsInv edges src max_hops φ visited results []) :
    (∀ v, v ∈ results ↔ v ≠ src ∧ v ∈ ball edges src max_hops) ∧ results.Nodup := by
  obtain ⟨_, vis_ball, vis_done, vis_eq, src_not, res_nd, src_phi, _, _, _⟩ := inv
  have hsrc_vis : src ∈ visited := (vis_eq src).mpr (Or.inl rfl)
  have closed : ∀ w ∈ visited, max_hops ≤ φ w ∨
      ∀ n ∈ adjacencyOf edges w, n ∈ visited ∧ φ n ≤ φ w + 1 := by
    intro w hw
    rcases vis_done w hw with hq | hmax | hclosed
    · cases hq
    · exact Or.inl hmax
    · exact Or.inr hclosed
  have complete : ∀ {j v}, ReachesIn edges src j v → j ≤ max_hops →
      v ∈ visited ∧ φ v ≤ j := by
    intro j v hr
    induction hr with
    | refl =>
      intro _
      exact ⟨hsrc_vis, le_of_eq src_phi⟩
    | step hr' hadj ih =>
      rename_i k u v'
      intro hk
      have hk' : k ≤ max_hops := Nat.le_of_succ_le hk
      rcases ih hk' with ⟨hu_vis, hu_phi⟩
      rcases closed u hu_vis with hmax | hcl
      · omega
      · rcases hcl v' (mem_adjacencyOf.mpr hadj) with ⟨hv_vis, hv_phi⟩
        exact ⟨hv_vis, by omega⟩
  refine ⟨fun v => ⟨?_, ?_⟩, res_nd⟩
  · intro hv
    have hv_vis : v ∈ visited := (vis_eq v).mpr (Or.inr hv)
    have hne : v ≠ src := fun h => src_not (h ▸ hv)
    refine ⟨hne, ?_⟩
    exact ball_mono (vis_ball v hv_vis).2 v (vis_ball v hv_vis).1
  · rintro ⟨hne, hball⟩
    rcases mem_ball_iff_reaches.mp hball with ⟨j, hj, hr⟩
    rcases complete hr hj with ⟨hv_vis, _⟩
    rcases (vis_eq v).mp hv_vis with rfl | hv
    · exact absurd rfl hne
    · exact hv

theorem bfsLoop_spec {edges : List (Nat × Nat)} {src max_hops : Nat} :
    ∀ (visited results : List Nat) (queue : List (Nat × Nat)),
      (∃ φ, BfsInv edges src max_hops φ visited results queue) →
      (∀ v, v ∈ bfsLoop edges max_hops visited results queue ↔
        (v ≠ src ∧ v ∈ ball edges src max_hops)) ∧
      (bfsLoop edges max_hops visited results queue).Nodup := by
  intro visited results queue
  induction visited, results, queue using bfsLoop.induct edges max_hops with
  | case1 visited results =>
    rintro ⟨φ, inv⟩
    have heq : bfsLoop edges max_hops visited results [] = results := by
      rw [bfsLoop]
    rw [heq]
    exact bfsInv_final inv
  | case2 visited results current hops rest hge ih =>
    rintro ⟨φ, inv⟩
    have heq : bfsLoop edges max_hops visited results ((current, hops) :: rest) =
        bfsLoop edges max_hops visited results rest := by
      rw [bfsLoop, if_pos hge]
    rw [heq]
    exact ih ⟨φ, bfsInv_skip inv hge⟩
  | case3 visited results current hops rest hlt t ih =>
    rintro ⟨φ, inv⟩
    have hlt' : hops < max_hops := Nat.lt_of_not_le hlt
    have heq : bfsLoop edges max_hops visited results ((current, hops) :: rest) =
        bfsLoop edges max_hops
          ((freshOf visited (adjacencyOf edges current)).reverse ++ visited)
          ((freshOf visited (adjacencyOf edges current)).reverse ++ results)
          (rest ++ (freshOf visited (adjacencyOf edges current)).map
            fun n => (n, hops + 1)) := by
      rw [bfsLoop, if_neg hlt]
      simp only [visitNeighbors_eq]
    have ht : t = ((freshOf visited (adjacencyOf edges current)).reverse ++ visited,
        (freshOf visited (adjacencyOf edges current)).reverse ++ results,
        rest ++ (freshOf visited (adjacencyOf edges current)).map
          fun n => (n, hops + 1)) :=
      visitNeighbors_eq (adjacencyOf edges current) visited results rest (hops + 1)
    rw [heq]
    simp only [ht] at ih
    exact ih ⟨_, bfsInv_step inv hlt'⟩

/-- C6: `within_distance_relations` computes exactly the set of nodes
reachable from the origin in at most `max_hops` undirected edge
traversals, excluding the origin itself and without duplicates; and
`max_hops = 0` yields the empty set for every graph and every origin. -/
theorem C6_within_distance_correct (index : RelationIndex) (src max_hops : Nat) :
    (∀ v, v ∈ within_distance_relations index src max_hops ↔
      (v ≠ src ∧ ReachableWithin index.rows src max_hops v)) ∧
    within_distance_relations index src 0 = [] ∧
    (within_distance_relations index src max_hops).Nodup := by
  refine ⟨?_, rfl, ?_⟩
  · intro v
    unfold within_distance_relations
    by_cases h0 : max_hops = 0
    · subst h0
      rw [if_pos rfl]
      constructor
      · intro h
        cases h
      · rintro ⟨hne, hrw⟩
        exact absurd (reachableWithin_zero hrw) hne
    · rw [if_neg h0]
      have hmain := @bfsLoop_spec index.rows src max_hops [src] [] [(src, 0)]
        ⟨fun _ => 0, bfsInv_init⟩
      rw [hmain.1 v]
      unfold ReachableWithin
      rw [mem_ball_iff_reaches]
  · unfold within_distance_relations
    by_cases h0 : max_hops = 0
    · subst h0
      rw [if_pos rfl]
      exact List.nodup_nil
    · rw [if_neg h0]
      exact (@bfsLoop_spec index.rows src max_hops [src] [] [(src, 0)]
        ⟨fun _ => 0, bfsInv_init⟩).2

/-- Witness for C9's amended theorem: the round trip on the empty store. -/
theorem C9_insert_get_roundtrip_witness :
    (entryAAA.id ∉ storeEmpty.entries.map fun r => r.id) ∧
    (∀ x, (entryAAA.id, x) ∉ storeEmpty.edges) ∧
    ∃ s', storeEmpty.insert entryAAA = .ok s' ∧
      ∃ r, s'.get entryAAA.id = .ok r ∧ r.id = entryAAA.id ∧
        r.meaning = entryAAA.meaning ∧ r.expression = entryAAA.expression ∧
        r.context = entryAAA.context ∧
        (∀ x, x ∈ r.relations ↔ x ∈ entryAAA.relations) :=
  ⟨by simp [storeEmpty], fun x => by simp [storeEmpty],
    C9_insert_get_roundtrip storeEmpty entryAAA (by simp [storeEmpty])
      fun x => by simp [storeEmpty]⟩

end ContextDB
